import Mathlib

/-!
Verification of the ordering subsystem of `pyramid/util.py`:
the `TopologicalSorter` (deterministic topological sorter over named,
partially ordered entries with FIRST/LAST anchors) and the
`WeakOrderedSet` (identity-keyed, order-preserving set of non-owning
references).

The Python code is embedded shallowly:

* Python node names are the inductive type `NName`: the two sentinel
  objects `FIRST` and `LAST` plus user-supplied (hashable) names,
  modelled as strings.
* Python dicts are association lists (`List (κ × β)`) so that insertion
  order — which Python dicts preserve and which the code's iteration
  relies on — is kept faithfully.  `lookupA`, `setA`, `eraseKey`,
  `adjustA` mirror `d[k]`, `d[k] = v`, `del d[k]` and in-place update
  of a stored value.
* Python sets that the code only queries for membership/subset
  (`req_before`, `req_after`, `has_before`, `has_after`) are lists used
  as sets (`insertS` deduplicates like `set.add`).
* `list.remove(x)` is `eraseFirst` (removes the first occurrence).
* The in-degree stored at `graph[node][0]` is an `Int`, exactly like a
  Python int (it could in principle be decremented below zero, and the
  `arcs == 0` test must not confuse `-1` with `0`).
* The `while roots:` loop is `kahnLoop`, structured with a fuel
  parameter; `sortedResult` supplies fuel `|names| + |arcs|` which is
  proved sufficient (`kahnLoop` never hits the fuel-out branch there).
* Raising `ConfigurationError` / `CyclicDependencyError` is returning
  `Except.error` with a `SortError` payload carrying the same data the
  Python exception message/argument carries (for the unsatisfied errors
  Python sorts the names into a message string; the model keeps the set
  of names as a list, which is what the claims — "naming `a`" — need).
-/

/-- A node name: the `FIRST` sentinel, the `LAST` sentinel, or an
ordinary (user-supplied) name, modelled as a string. -/
inductive NName where
  | first : NName
  | lastN : NName
  | user : String → NName
deriving DecidableEq, Repr

/-- Dict read `d[k]` on an association-list dict: the value of the first binding
of `k`, if any. -/
def lookupA {κ β : Type} [DecidableEq κ] (k : κ) : List (κ × β) → Option β
  | [] => none
  | (a, b) :: t => if a = k then some b else lookupA k t

/-- Dict write `d[k] = v` on an association-list dict: update the first binding of
`k` in place, else append (Python dicts keep the original position on
update and append new keys at the end). -/
def setA {κ β : Type} [DecidableEq κ] (k : κ) (v : β) : List (κ × β) → List (κ × β)
  | [] => [(k, v)]
  | (a, b) :: t => if a = k then (k, v) :: t else (a, b) :: setA k v t

/-- Dict deletion `del d[k]` on an association-list dict: drop the first binding of
`k` (a no-op when absent; with the no-duplicate-keys invariant the
binding is unique). -/
def eraseKey {κ β : Type} [DecidableEq κ] (k : κ) : List (κ × β) → List (κ × β)
  | [] => []
  | (a, b) :: t => if a = k then t else (a, b) :: eraseKey k t

/-- In-place update of the value stored under `k` (used for
`graph[node].append(...)` and `graph[node][0] += 1`). -/
def adjustA {κ β : Type} [DecidableEq κ] (k : κ) (f : β → β) : List (κ × β) → List (κ × β)
  | [] => []
  | (a, b) :: t => if a = k then (a, f b) :: t else (a, b) :: adjustA k f t

/-- List removal `l.remove(x)`: drop the first occurrence of `x` (Python raises
`ValueError` when `x` is absent; all call sites in the embedded code
are guarded so that the element is present). -/
def eraseFirst {α : Type} [DecidableEq α] (x : α) : List α → List α
  | [] => []
  | a :: t => if a = x then t else a :: eraseFirst x t

/-- Set insertion `s.add(x)` on a Python set modelled as a duplicate-free list. -/
def insertS {α : Type} [DecidableEq α] (x : α) (l : List α) : List α :=
  if x ∈ l then l else l ++ [x]

/-- Number of occurrences of `x` in a list. -/
def countL {α : Type} [DecidableEq α] (x : α) : List α → Nat
  | [] => 0
  | a :: t => (if a = x then 1 else 0) + countL x t

/-- The state of a `TopologicalSorter` (the fields of `self`), with
payloads of type `V`.  `after`/`before` arguments are pre-normalised to
`Option (List NName)` (the code wraps a single non-iterable name into a
one-element tuple); `default_before = LAST` is therefore
`some [.lastN]` and `default_after = None` is `none`. -/
structure TopologicalSorter (V : Type) where
  names : List NName
  req_before : List NName
  req_after : List NName
  name2before : List (NName × List NName)
  name2after : List (NName × List NName)
  name2val : List (NName × V)
  order : List (NName × NName)
  default_before : Option (List NName)
  default_after : Option (List NName)
  first : NName
  last : NName
deriving DecidableEq, Repr

namespace TopologicalSorter

/-- Constructor `TopologicalSorter()` with the default constructor arguments. -/
def init {V : Type} : TopologicalSorter V :=
  { names := [], req_before := [], req_after := [], name2before := [],
    name2after := [], name2val := [], order := [],
    default_before := some [.lastN], default_after := none,
    first := .first, last := .lastN }

/-- Method `TopologicalSorter.remove(name)`.  Deletes the entry and every
constraint edge it declared.  (Python raises when `name` is absent; the
only internal caller, `add`, guards with `name in self.names`.) -/
def remove {V : Type} (s : TopologicalSorter V) (name : NName) : TopologicalSorter V :=
  let s1 := { s with names := eraseFirst name s.names,
                     name2val := eraseKey name s.name2val }
  let aft := (lookupA name s1.name2after).getD []
  let s2 := { s1 with name2after := eraseKey name s1.name2after }
  -- `if after:` — Python truthiness: skipped when the stored tuple is empty
  let s3 :=
    if aft.isEmpty then s2
    else { s2 with req_after := eraseFirst name s2.req_after,
                   order := aft.foldl (fun o u => eraseFirst (u, name) o) s2.order }
  let bef := (lookupA name s3.name2before).getD []
  let s4 := { s3 with name2before := eraseKey name s3.name2before }
  if bef.isEmpty then s4
  else { s4 with req_before := eraseFirst name s4.req_before,
                 order := bef.foldl (fun o u => eraseFirst (name, u) o) s4.order }

/-- The `after`/`before` pair actually used by `add` (which reads
`self.default_after`/`self.default_before`): the defaults are
substituted exactly when both arguments are `None`. -/
def effPair (da dbf after before : Option (List NName)) :
    Option (List NName) × Option (List NName) :=
  if after = none ∧ before = none then (da, dbf) else (after, before)

/-- Method `TopologicalSorter.add(name, val, after=None, before=None)`. -/
def add {V : Type} (s : TopologicalSorter V) (name : NName) (val : V)
    (after : Option (List NName) := none) (before : Option (List NName) := none) :
    TopologicalSorter V :=
  let s1 := if name ∈ s.names then s.remove name else s
  let s2 := { s1 with names := s1.names ++ [name],
                      name2val := setA name val s1.name2val }
  let ab := effPair s2.default_after s2.default_before after before
  let s3 :=
    match ab.1 with
    | none => s2
    | some l =>
        { s2 with name2after := setA name l s2.name2after,
                  order := s2.order ++ l.map (fun u => (u, name)),
                  req_after := insertS name s2.req_after }
  match ab.2 with
  | none => s3
  | some l =>
      { s3 with name2before := setA name l s3.name2before,
                order := s3.order ++ l.map (fun o => (name, o)),
                req_before := insertS name s3.req_before }

/-- Method `TopologicalSorter.values()` — the payloads in insertion order (the
values of the `name2val` dict). -/
def values {V : Type} (s : TopologicalSorter V) : List V :=
  s.name2val.map Prod.snd

end TopologicalSorter

/-- The graph built inside `sorted()`: a dict mapping each node to the
list `[indegree, child, child, ...]`, modelled as `(indegree, children)`. -/
abbrev Graph := List (NName × Int × List NName)

/-- The error raised by `sorted()`: the two `ConfigurationError`s for
unsatisfied dependencies (carrying the set `req_* - has_*` of offending
entry names) and `CyclicDependencyError` (carrying the `cycledeps`
mapping of each unresolved node to its successors). -/
inductive SortError where
  | unsatisfiedBefore : List NName → SortError
  | unsatisfiedAfter : List NName → SortError
  | cyclic : List (NName × List NName) → SortError
deriving DecidableEq, Repr

namespace TopologicalSorter

/-- The local `order` list of `sorted()`: `[(self.first, self.last)]`
followed by `self.order`. -/
def fullOrder {V : Type} (s : TopologicalSorter V) : List (NName × NName) :=
  (s.first, s.last) :: s.order

/-- The local `names` list of `sorted()`: `[self.first, self.last]`
extended with `self.names`. -/
def fullNames {V : Type} (s : TopologicalSorter V) : List NName :=
  s.first :: s.last :: s.names

/-- Helper `add_node(node)`: if absent, register it as a root with in-degree 0
and no children. -/
def addNode (st : Graph × List NName) (node : NName) : Graph × List NName :=
  if (lookupA node st.1).isSome then st
  else (st.1 ++ [(node, ((0 : Int), ([] : List NName)))], st.2 ++ [node])

/-- The accumulator of the arc-building loop of `sorted()`:
the graph, the roots list, and the `has_before`/`has_after` sets. -/
structure BuildState where
  graph : Graph
  roots : List NName
  hasB : List NName
  hasA : List NName
deriving Repr

/-- One iteration of `for a, b in order:` — `add_arc` plus the
`has_before`/`has_after` bookkeeping, guarded by
`if a in names and b in names` (missing dependencies are skipped). -/
def arcStep (ns : List NName) (st : BuildState) (p : NName × NName) : BuildState :=
  if p.1 ∈ ns ∧ p.2 ∈ ns then
    let g1 := adjustA p.1 (fun pr => (pr.1, pr.2 ++ [p.2])) st.graph
    let g2 := adjustA p.2 (fun pr => (pr.1 + 1, pr.2)) g1
    let r := if p.2 ∈ st.roots then eraseFirst p.2 st.roots else st.roots
    ⟨g2, r, insertS p.1 st.hasB, insertS p.2 st.hasA⟩
  else st

/-- The graph-building phase of `sorted()`: add all nodes, then fold
the arcs of `fullOrder` through `arcStep`. -/
def buildGraph {V : Type} (s : TopologicalSorter V) : BuildState :=
  let gr := (fullNames s).foldl addNode ([], [])
  (fullOrder s).foldl (arcStep (fullNames s)) ⟨gr.1, gr.2, [], []⟩

/-- Children `graph[root][1:]` — the stored children of a node (the lookup is
guarded by the loop invariant in `sorted()`; a Python `KeyError` cannot
occur there). -/
def childrenOf (g : Graph) (n : NName) : List NName :=
  match lookupA n g with
  | some pr => pr.2
  | none => []

/-- The body of `for child in children:` — decrement the child's
in-degree; when it reaches zero, `roots.insert(0, child)` puts the
child at the *front* of the roots list. -/
def kahnChild (st : Graph × List NName) (child : NName) : Graph × List NName :=
  match lookupA child st.1 with
  | none => st  -- Python would raise KeyError; unreachable in `sorted()`
  | some pr =>
      let arcs : Int := pr.1 - 1
      (setA child (arcs, pr.2) st.1, if arcs = 0 then child :: st.2 else st.2)

/-- The `while roots:` loop of `sorted()`: pop the first root, emit it,
decrement its children, prepend any child whose in-degree reached zero,
and delete the root from the graph.  `fuel` bounds the number of
iterations; `sortedResult` passes a provably sufficient amount. -/
def kahnLoop : Nat → Graph → List NName → List NName → List NName × Graph
  | _, g, [], acc => (acc, g)
  | 0, g, _ :: _, acc => (acc, g)
  | fuel + 1, g, root :: rest, acc =>
      let res := (childrenOf g root).foldl kahnChild (g, rest)
      kahnLoop fuel (eraseKey root res.1) res.2 (acc ++ [root])

/-- The traversal part of `sorted()`: run the Kahn loop on the built
graph, returning `(sorted_names, residual graph)`. -/
def sortedCore {V : Type} (s : TopologicalSorter V) : List NName × Graph :=
  let st := buildGraph s
  kahnLoop ((fullNames s).length + (fullOrder s).length) st.graph st.roots []

/-- Method `TopologicalSorter.sorted()`.  Validates the declared
`after`/`before` requirements against the recorded arcs, runs the Kahn
traversal, reports a cycle via the residual graph, and otherwise emits
the `(name, value)` pairs of the registered entries in traversal
order.  (In the result loop, `name in self.names` guarantees the
`name2val` lookup succeeds for every state built by `add`/`remove`,
mirroring `self.name2val[name]`.) -/
def sortedResult {V : Type} (s : TopologicalSorter V) :
    Except SortError (List (NName × V)) :=
  let st := buildGraph s
  let missB := s.req_before.filter (fun n => decide (n ∉ st.hasB))
  let missA := s.req_after.filter (fun n => decide (n ∉ st.hasA))
  if missB.isEmpty then
    if missA.isEmpty then
      let res := sortedCore s
      if res.2.isEmpty then
        .ok (res.1.filterMap (fun n =>
          if n ∈ s.names then (lookupA n s.name2val).map (fun v => (n, v)) else none))
      else
        .error (.cyclic (res.2.map (fun p => (p.1, p.2.2))))
    else .error (.unsatisfiedAfter missA)
  else .error (.unsatisfiedBefore missB)

/-- Reader `sorted()` as a state-passing method: the method body assigns to no
field of `self` (it only builds local structures), so the post-state is
the input state unchanged. -/
def sortedM {V : Type} (s : TopologicalSorter V) :
    (Except SortError (List (NName × V))) × TopologicalSorter V :=
  (sortedResult s, s)

/-- Reader `values()` as a state-passing method: it only reads `name2val`. -/
def valuesM {V : Type} (s : TopologicalSorter V) : List V × TopologicalSorter V :=
  (values s, s)

end TopologicalSorter

/-- One `add` call in a call sequence against a `TopologicalSorter`. -/
structure AddOp (V : Type) where
  name : NName
  val : V
  after : Option (List NName) := none
  before : Option (List NName) := none
deriving DecidableEq, Repr

/-- Fold a sequence of `add` calls over a fresh `TopologicalSorter()`. -/
def buildTS {V : Type} (ops : List (AddOp V)) : TopologicalSorter V :=
  ops.foldl (fun s o => s.add o.name o.val o.after o.before) TopologicalSorter.init

/-- The state of a `WeakOrderedSet`: `_items` maps an object identity
(`id(item)`, a `Nat` here) to its weak reference — modelled as the
referent itself, of type `α` — and `_order` lists the identities,
oldest first.  Automatic eviction when the referent dies is the host
runtime invoking the finalizer `removeById`. -/
structure WeakOrderedSet (α : Type) where
  _items : List (Nat × α)
  _order : List Nat
deriving DecidableEq, Repr

namespace WeakOrderedSet

/-- Constructor `WeakOrderedSet()`. -/
def init {α : Type} : WeakOrderedSet α := ⟨[], []⟩

/-- Method `add(item)`: `oid = id(item)`; if already present, move `oid` to
the end of `_order`; otherwise store a new (weak) reference and append
`oid`. -/
def add {α : Type} (s : WeakOrderedSet α) (oid : Nat) (item : α) : WeakOrderedSet α :=
  if (lookupA oid s._items).isSome then
    { s with _order := eraseFirst oid s._order ++ [oid] }
  else
    { _items := s._items ++ [(oid, item)], _order := s._order ++ [oid] }

/-- Callback `_remove_by_id(oid)` — the weak-reference finalization callback:
if present, delete the item entry and remove the identity from the
order list (one step touching both structures). -/
def removeById {α : Type} (s : WeakOrderedSet α) (oid : Nat) : WeakOrderedSet α :=
  if (lookupA oid s._items).isSome then
    { _items := eraseKey oid s._items, _order := eraseFirst oid s._order }
  else s

/-- Method `remove(item)` is `_remove_by_id(id(item))`. -/
def remove {α : Type} (s : WeakOrderedSet α) (oid : Nat) : WeakOrderedSet α :=
  s.removeById oid

/-- Method `empty()`: reset both structures. -/
def empty {α : Type} (_ : WeakOrderedSet α) : WeakOrderedSet α := ⟨[], []⟩

/-- Length `len(self)` is `len(self._order)`. -/
def size {α : Type} (s : WeakOrderedSet α) : Nat := s._order.length

/-- Membership `item in self` is `id(item) in self._items`. -/
def containsId {α : Type} (s : WeakOrderedSet α) (oid : Nat) : Bool :=
  (lookupA oid s._items).isSome

/-- Iteration `iter(self)`: dereference `self._items[oid]` for each `oid` in
`_order`.  A `none` element would be a dangling entry (Python
`KeyError`); the class invariant makes it impossible. -/
def iterRefs {α : Type} (s : WeakOrderedSet α) : List (Option α) :=
  s._order.map (fun oid => lookupA oid s._items)

/-- The `last` property: dereference the most recently appended
identity, or `None` when empty. -/
def last {α : Type} (s : WeakOrderedSet α) : Option α :=
  match s._order.getLast? with
  | none => none
  | some oid => lookupA oid s._items

/-- The structural invariant of `WeakOrderedSet`: the order list is
duplicate-free, it lists exactly the keys of `_items`, and `_items` has
no duplicate keys. -/
def Inv {α : Type} (s : WeakOrderedSet α) : Prop :=
  s._order.Nodup ∧ (∀ oid ∈ s._order, (lookupA oid s._items).isSome) ∧
    (∀ p ∈ s._items, p.1 ∈ s._order) ∧ (s._items.map Prod.fst).Nodup

instance {α : Type} (s : WeakOrderedSet α) : Decidable s.Inv := by
  unfold Inv; infer_instance

end WeakOrderedSet

/-- Predicate stating that `x` occurs strictly before `y` in the list `l`. -/
def listBefore {α : Type} (x y : α) (l : List α) : Prop :=
  ∃ l1 l2 l3, l = l1 ++ x :: l2 ++ y :: l3

/-- Total number of stored child entries in a graph (the termination
measure component of the Kahn loop). -/
def sumCh (g : Graph) : Nat :=
  (g.map (fun e => e.2.2.length)).sum

/-- The arcs of `fullOrder` that `sorted()` actually adds to the graph:
those whose two endpoints are present in `fullNames`. -/
def effArcs {V : Type} (s : TopologicalSorter V) : List (NName × NName) :=
  (TopologicalSorter.fullOrder s).filter
    (fun p => decide (p.1 ∈ TopologicalSorter.fullNames s ∧ p.2 ∈ TopologicalSorter.fullNames s))

/-- Number of arcs of `A` pointing into `n` whose source is still a key
of `g` (the value the stored in-degree of `n` tracks during the loop). -/
def arcsInto (A : List (NName × NName)) (g : Graph) (n : NName) : Nat :=
  (A.filter (fun p => decide (p.2 = n) && (lookupA p.1 g).isSome)).length

/-- Invariant of the graph-building phase of `sorted()` after the arcs
of `A0` (all with endpoints in `ns`) have been folded in:
keys are exactly the deduplicated node list, each node stores its arcs
as children in arc order and its in-degree, the roots are in-degree-0
nodes without duplicates, and `has_before`/`has_after` record exactly
the sources/targets seen so far. -/
structure BInv (ns nodes : List NName) (A0 : List (NName × NName))
    (st : TopologicalSorter.BuildState) : Prop where
  keys_eq : st.graph.map Prod.fst = nodes
  nodesN : nodes.Nodup
  nodes_mem : ∀ n, n ∈ nodes ↔ n ∈ ns
  chE : ∀ n d ch, lookupA n st.graph = some (d, ch) →
    ch = (A0.filter (fun p => decide (p.1 = n))).map Prod.snd
  dE : ∀ n d ch, lookupA n st.graph = some (d, ch) →
    d = ((A0.filter (fun p => decide (p.2 = n))).length : Int)
  rootsZ : ∀ r ∈ st.roots, ∃ ch, lookupA r st.graph = some (0, ch)
  rootsN : st.roots.Nodup
  sum_le : sumCh st.graph ≤ A0.length

/-- Invariant of the Kahn traversal loop.  `A` is the list of added
arcs, `nodes` the node set.  The graph holds exactly the not-yet-emitted
nodes; each holds its original children and an in-degree counting the
arcs from not-yet-emitted sources; the roots are in-degree-0 graph
nodes; and every arc whose target has been emitted has its source
emitted earlier. -/
structure KInv (A : List (NName × NName)) (nodes : List NName)
    (g : Graph) (roots acc : List NName) : Prop where
  keysN : (g.map Prod.fst).Nodup
  keysC : ∀ n, (lookupA n g).isSome ↔ (n ∈ nodes ∧ n ∉ acc)
  chE : ∀ n d ch, lookupA n g = some (d, ch) →
    ch = (A.filter (fun p => decide (p.1 = n))).map Prod.snd
  dE : ∀ n d ch, lookupA n g = some (d, ch) → d = (arcsInto A g n : Int)
  arcsN : ∀ p ∈ A, p.1 ∈ nodes ∧ p.2 ∈ nodes
  rootsZ : ∀ r ∈ roots, ∃ ch, lookupA r g = some (0, ch)
  rootsN : roots.Nodup
  accN : acc.Nodup
  arcsB : ∀ p ∈ A, p.2 ∈ acc → listBefore p.1 p.2 acc

/-- Claim C1's tie-break example: `a` unconstrained, then `b` after
`a`, then `c` after `a` — registration order `a, b, c`. -/
def exC1 : TopologicalSorter Nat := buildTS
  [⟨.user "a", 1, none, none⟩, ⟨.user "b", 2, some [.user "a"], none⟩,
   ⟨.user "c", 3, some [.user "a"], none⟩]

/-- The spec's end-to-end example: `c`, then `b` after `c`, then `a`
after `b`. -/
def exSpec : TopologicalSorter Nat := buildTS
  [⟨.user "c", 3, none, none⟩, ⟨.user "b", 2, some [.user "c"], none⟩,
   ⟨.user "a", 1, some [.user "b"], none⟩]

/-- Claim C2's example: `a` added after `missing`, never added. -/
def exC2w : TopologicalSorter Nat := buildTS [⟨.user "a", 1, some [.user "missing"], none⟩]

/-- A state falsifying claim C2 as stated: `a` declares
`after=('b', 'missing')` where `b` exists and `missing` does not. -/
def exC2c : TopologicalSorter Nat := buildTS
  [⟨.user "b", 2, none, none⟩, ⟨.user "a", 1, some [.user "b", .user "missing"], none⟩]

/-- Claim C4's example: `a` after `b` and `b` after `a`. -/
def exC4 : TopologicalSorter Nat := buildTS
  [⟨.user "a", 1, some [.user "b"], none⟩, ⟨.user "b", 2, some [.user "a"], none⟩]

/-- A state falsifying claim C5 as stated: `a` is first added with
`after=()` (an empty tuple), then re-added with no constraints. -/
def exC5c : TopologicalSorter Nat := buildTS
  [⟨.user "a", 1, some [], none⟩, ⟨.user "a", 2, none, none⟩]

/-- The counterfactual for `exC5c`: only the second `add` happens. -/
def exC5cf : TopologicalSorter Nat := buildTS [⟨.user "a", 2, none, none⟩]

/-- Predicate stating that entry `r`'s declared `before` requirement is
satisfiable at sort time: some recorded pair leaves `r` with both
endpoints present in the graph (this is exactly membership of `r` in
`has_before` after the arc-building loop). -/
def SatB {V : Type} (s : TopologicalSorter V) (r : NName) : Prop :=
  ∃ p ∈ TopologicalSorter.fullOrder s, p.1 = r ∧
    p.1 ∈ TopologicalSorter.fullNames s ∧ p.2 ∈ TopologicalSorter.fullNames s

/-- Predicate stating that entry `x`'s declared `after` requirement is
satisfiable at sort time: some recorded pair enters `x` with both
endpoints present in the graph (membership of `x` in `has_after`). -/
def SatA {V : Type} (s : TopologicalSorter V) (x : NName) : Prop :=
  ∃ p ∈ TopologicalSorter.fullOrder s, p.2 = x ∧
    p.1 ∈ TopologicalSorter.fullNames s ∧ p.2 ∈ TopologicalSorter.fullNames s

instance {V : Type} (s : TopologicalSorter V) (r : NName) : Decidable (SatB s r) := by
  unfold SatB
  infer_instance

instance {V : Type} (s : TopologicalSorter V) (x : NName) : Decidable (SatA s x) := by
  unfold SatA
  infer_instance

/-! ### Association-list and list helper lemmas -/

theorem lookupA_append_some {κ β : Type} [DecidableEq κ] {k : κ} {b : β}
    {l1 l2 : List (κ × β)} (h : lookupA k l1 = some b) :
    lookupA k (l1 ++ l2) = some b := by
  induction l1 with
  | nil => simp [lookupA] at h
  | cons p t ih =>
      obtain ⟨a, c⟩ := p
      by_cases hak : a = k
      · simp only [lookupA, if_pos hak] at h
        simp only [List.cons_append, lookupA, if_pos hak]
        exact h
      · simp only [lookupA, if_neg hak] at h
        simp only [List.cons_append, lookupA, if_neg hak]
        exact ih h

theorem lookupA_append_none {κ β : Type} [DecidableEq κ] {k : κ}
    {l1 l2 : List (κ × β)} (h : lookupA k l1 = none) :
    lookupA k (l1 ++ l2) = lookupA k l2 := by
  induction l1 with
  | nil => simp
  | cons p t ih =>
      obtain ⟨a, c⟩ := p
      by_cases hak : a = k
      · simp [lookupA, if_pos hak] at h
      · simp only [lookupA, if_neg hak] at h
        simp only [List.cons_append, lookupA, if_neg hak]
        exact ih h

theorem lookupA_isSome_iff {κ β : Type} [DecidableEq κ] {k : κ} {l : List (κ × β)} :
    (lookupA k l).isSome ↔ k ∈ l.map Prod.fst := by
  induction l with
  | nil => simp [lookupA]
  | cons p t ih =>
      obtain ⟨a, c⟩ := p
      by_cases hak : a = k
      · simp [lookupA, if_pos hak, hak]
      · simp only [lookupA, if_neg hak, List.map_cons, List.mem_cons]
        rw [ih]
        constructor
        · exact Or.inr
        · rintro (h | h)
          · exact absurd h.symm hak
          · exact h

theorem lookupA_eq_none_of_not_mem {κ β : Type} [DecidableEq κ] {k : κ}
    {l : List (κ × β)} (h : k ∉ l.map Prod.fst) : lookupA k l = none := by
  cases hl : lookupA k l with
  | none => rfl
  | some b => exact absurd (lookupA_isSome_iff.1 (by simp [hl])) h

theorem mem_of_lookupA {κ β : Type} [DecidableEq κ] {k : κ} {b : β}
    {l : List (κ × β)} (h : lookupA k l = some b) : (k, b) ∈ l := by
  induction l with
  | nil => simp [lookupA] at h
  | cons p t ih =>
      obtain ⟨a, c⟩ := p
      by_cases hak : a = k
      · subst hak
        have h' : c = b := by simpa [lookupA] using h
        subst h'
        exact List.mem_cons_self _ _
      · simp only [lookupA, if_neg hak] at h
        exact List.mem_cons_of_mem _ (ih h)

theorem lookupA_of_mem_nodup {κ β : Type} [DecidableEq κ] {k : κ} {b : β}
    {l : List (κ × β)} (hn : (l.map Prod.fst).Nodup) (hm : (k, b) ∈ l) :
    lookupA k l = some b := by
  induction l with
  | nil => simp at hm
  | cons p t ih =>
      obtain ⟨a, c⟩ := p
      simp only [List.map_cons, List.nodup_cons] at hn
      rcases List.mem_cons.1 hm with h | h
      · obtain ⟨h1, h2⟩ := Prod.ext_iff.1 h.symm
        subst h1
        subst h2
        simp [lookupA]
      · have hak : ¬ (a = k) := by
          rintro rfl
          exact hn.1 (List.mem_map_of_mem Prod.fst h)
        simp only [lookupA, if_neg hak]
        exact ih hn.2 h

theorem lookupA_setA_self {κ β : Type} [DecidableEq κ] {k : κ} {v : β}
    {l : List (κ × β)} : lookupA k (setA k v l) = some v := by
  induction l with
  | nil => simp [setA, lookupA]
  | cons p t ih =>
      obtain ⟨a, c⟩ := p
      by_cases hak : a = k
      · simp [setA, if_pos hak, lookupA]
      · simp [setA, if_neg hak, lookupA, hak, ih]

theorem lookupA_setA_ne {κ β : Type} [DecidableEq κ] {k k' : κ} {v : β}
    {l : List (κ × β)} (h : k' ≠ k) : lookupA k' (setA k v l) = lookupA k' l := by
  have hkk : ¬ (k = k') := fun hh => h hh.symm
  induction l with
  | nil => simp [setA, lookupA, hkk]
  | cons p t ih =>
      obtain ⟨a, c⟩ := p
      by_cases hak : a = k
      · subst hak
        simp [setA, lookupA, hkk]
      · simp [setA, if_neg hak, lookupA, ih]

theorem setA_of_none {κ β : Type} [DecidableEq κ] {k : κ} {v : β}
    {l : List (κ × β)} (h : lookupA k l = none) : setA k v l = l ++ [(k, v)] := by
  induction l with
  | nil => simp [setA]
  | cons p t ih =>
      obtain ⟨a, c⟩ := p
      by_cases hak : a = k
      · simp [lookupA, if_pos hak] at h
      · simp only [lookupA, if_neg hak] at h
        simp [setA, if_neg hak, ih h]

theorem map_fst_setA_isSome {κ β : Type} [DecidableEq κ] {k : κ} {v : β}
    {l : List (κ × β)} (h : (lookupA k l).isSome) :
    (setA k v l).map Prod.fst = l.map Prod.fst := by
  induction l with
  | nil => simp [lookupA] at h
  | cons p t ih =>
      obtain ⟨a, c⟩ := p
      by_cases hak : a = k
      · subst hak
        simp [setA]
      · simp only [lookupA, if_neg hak] at h
        simp [setA, if_neg hak, ih h]

theorem eraseKey_of_none {κ β : Type} [DecidableEq κ] {k : κ}
    {l : List (κ × β)} (h : lookupA k l = none) : eraseKey k l = l := by
  induction l with
  | nil => simp [eraseKey]
  | cons p t ih =>
      obtain ⟨a, c⟩ := p
      by_cases hak : a = k
      · simp [lookupA, if_pos hak] at h
      · simp only [lookupA, if_neg hak] at h
        simp [eraseKey, if_neg hak, ih h]

theorem lookupA_eraseKey_ne {κ β : Type} [DecidableEq κ] {k k' : κ}
    {l : List (κ × β)} (h : k' ≠ k) : lookupA k' (eraseKey k l) = lookupA k' l := by
  have hkk : ¬ (k = k') := fun hh => h hh.symm
  induction l with
  | nil => simp [eraseKey]
  | cons p t ih =>
      obtain ⟨a, c⟩ := p
      by_cases hak : a = k
      · subst hak
        simp [eraseKey, lookupA, hkk]
      · simp [eraseKey, if_neg hak, lookupA, ih]

theorem map_fst_eraseKey {κ β : Type} [DecidableEq κ] {k : κ} {l : List (κ × β)} :
    (eraseKey k l).map Prod.fst = eraseFirst k (l.map Prod.fst) := by
  induction l with
  | nil => simp [eraseKey, eraseFirst]
  | cons p t ih =>
      obtain ⟨a, c⟩ := p
      by_cases hak : a = k
      · simp [eraseKey, eraseFirst, if_pos hak]
      · simp [eraseKey, eraseFirst, if_neg hak, ih]

theorem eraseKey_setA_none {κ β : Type} [DecidableEq κ] {k : κ} {v : β}
    {l : List (κ × β)} (h : lookupA k l = none) : eraseKey k (setA k v l) = l := by
  induction l with
  | nil => simp [setA, eraseKey]
  | cons p t ih =>
      obtain ⟨a, c⟩ := p
      by_cases hak : a = k
      · simp [lookupA, if_pos hak] at h
      · simp only [lookupA, if_neg hak] at h
        simp [setA, if_neg hak, eraseKey, ih h]

theorem lookupA_adjustA_self {κ β : Type} [DecidableEq κ] {k : κ} {f : β → β}
    {l : List (κ × β)} : lookupA k (adjustA k f l) = (lookupA k l).map f := by
  induction l with
  | nil => simp [adjustA, lookupA]
  | cons p t ih =>
      obtain ⟨a, c⟩ := p
      by_cases hak : a = k
      · simp [adjustA, if_pos hak, lookupA, hak]
      · simp [adjustA, if_neg hak, lookupA, hak, ih]

theorem lookupA_adjustA_ne {κ β : Type} [DecidableEq κ] {k k' : κ} {f : β → β}
    {l : List (κ × β)} (h : k' ≠ k) :
    lookupA k' (adjustA k f l) = lookupA k' l := by
  have hkk : ¬ (k = k') := fun hh => h hh.symm
  induction l with
  | nil => simp [adjustA]
  | cons p t ih =>
      obtain ⟨a, c⟩ := p
      by_cases hak : a = k
      · subst hak
        simp [adjustA, lookupA, hkk]
      · simp [adjustA, if_neg hak, lookupA, ih]

theorem map_fst_adjustA {κ β : Type} [DecidableEq κ] {k : κ} {f : β → β}
    {l : List (κ × β)} : (adjustA k f l).map Prod.fst = l.map Prod.fst := by
  induction l with
  | nil => simp [adjustA]
  | cons p t ih =>
      obtain ⟨a, c⟩ := p
      by_cases hak : a = k
      · simp [adjustA, if_pos hak]
      · simp [adjustA, if_neg hak, ih]

theorem eraseFirst_of_not_mem {α : Type} [DecidableEq α] {x : α} {l : List α}
    (h : x ∉ l) : eraseFirst x l = l := by
  induction l with
  | nil => simp [eraseFirst]
  | cons a t ih =>
      have hax : ¬ (a = x) := fun hh => h (hh ▸ List.mem_cons_self _ _)
      have hxt : x ∉ t := fun hh => h (List.mem_cons_of_mem _ hh)
      simp [eraseFirst, if_neg hax, ih hxt]

theorem eraseFirst_append_left {α : Type} [DecidableEq α] {x : α} {l1 l2 : List α}
    (h : x ∉ l1) : eraseFirst x (l1 ++ l2) = l1 ++ eraseFirst x l2 := by
  induction l1 with
  | nil => simp
  | cons a t ih =>
      have hax : ¬ (a = x) := fun hh => h (hh ▸ List.mem_cons_self _ _)
      have hxt : x ∉ t := fun hh => h (List.mem_cons_of_mem _ hh)
      simp [eraseFirst, if_neg hax, ih hxt]

theorem eraseFirst_cons_self {α : Type} [DecidableEq α] {x : α} {t : List α} :
    eraseFirst x (x :: t) = t := by
  simp [eraseFirst]

theorem mem_of_mem_eraseFirst {α : Type} [DecidableEq α] {x y : α} {l : List α}
    (h : y ∈ eraseFirst x l) : y ∈ l := by
  induction l with
  | nil => simp [eraseFirst] at h
  | cons a t ih =>
      by_cases hax : a = x
      · simp only [eraseFirst, if_pos hax] at h
        exact List.mem_cons_of_mem _ h
      · simp only [eraseFirst, if_neg hax, List.mem_cons] at h
        rcases h with h | h
        · exact h ▸ List.mem_cons_self _ _
        · exact List.mem_cons_of_mem _ (ih h)

theorem nodup_eraseFirst {α : Type} [DecidableEq α] {x : α} {l : List α}
    (h : l.Nodup) : (eraseFirst x l).Nodup := by
  induction l with
  | nil => simp [eraseFirst]
  | cons a t ih =>
      simp only [List.nodup_cons] at h
      by_cases hax : a = x
      · simp only [eraseFirst, if_pos hax]
        exact h.2
      · simp only [eraseFirst, if_neg hax, List.nodup_cons]
        exact ⟨fun hh => h.1 (mem_of_mem_eraseFirst hh), ih h.2⟩

theorem mem_eraseFirst_nodup {α : Type} [DecidableEq α] {x y : α} {l : List α}
    (h : l.Nodup) : y ∈ eraseFirst x l ↔ (y ∈ l ∧ y ≠ x) := by
  induction l with
  | nil => simp [eraseFirst]
  | cons a t ih =>
      simp only [List.nodup_cons] at h
      by_cases hax : a = x
      · subst hax
        simp only [eraseFirst, if_pos rfl, List.mem_cons]
        constructor
        · intro hy
          refine ⟨Or.inr hy, ?_⟩
          rintro rfl
          exact h.1 hy
        · rintro ⟨hy | hy, hne⟩
          · exact absurd hy hne
          · exact hy
      · simp only [eraseFirst, if_neg hax, List.mem_cons, ih h.2]
        constructor
        · rintro (rfl | ⟨hy, hne⟩)
          · exact ⟨Or.inl rfl, hax⟩
          · exact ⟨Or.inr hy, hne⟩
        · rintro ⟨hy | hy, hne⟩
          · exact Or.inl hy
          · exact Or.inr ⟨hy, hne⟩

theorem mem_insertS {α : Type} [DecidableEq α] {x y : α} {l : List α} :
    y ∈ insertS x l ↔ (y ∈ l ∨ y = x) := by
  unfold insertS
  by_cases hx : x ∈ l
  · simp only [if_pos hx]
    constructor
    · exact Or.inl
    · rintro (h | rfl)
      · exact h
      · exact hx
  · simp [if_neg hx]

theorem countL_eq_zero {α : Type} [DecidableEq α] {x : α} {l : List α} :
    countL x l = 0 ↔ x ∉ l := by
  induction l with
  | nil => simp [countL]
  | cons a t ih =>
      by_cases hax : a = x
      · subst hax
        simp [countL]
      · simp only [countL, if_neg hax, Nat.zero_add, ih, List.mem_cons]
        constructor
        · intro h0 hor
          rcases hor with hor | hor
          · exact hax hor.symm
          · exact h0 hor
        · intro hnm hm
          exact hnm (Or.inr hm)

theorem countL_map {α γ : Type} [DecidableEq γ] {f : α → γ} {x : γ} {l : List α} :
    countL x (l.map f) = (l.filter (fun a => decide (f a = x))).length := by
  induction l with
  | nil => simp [countL]
  | cons a t ih =>
      by_cases hax : f a = x
      · simp [countL, List.filter, hax, ih, Nat.add_comm]
      · simp [countL, List.filter, hax, ih]

theorem length_filter_le_of_imp {α : Type} {l : List α} {p q : α → Bool}
    (h : ∀ a ∈ l, p a = true → q a = true) :
    (l.filter p).length ≤ (l.filter q).length := by
  induction l with
  | nil => simp
  | cons a t ih =>
      have ht : ∀ b ∈ t, p b = true → q b = true :=
        fun b hb => h b (List.mem_cons_of_mem _ hb)
      by_cases hp : p a = true
      · have hq := h a (List.mem_cons_self _ _) hp
        simp only [List.filter_cons, hp, hq, if_true]
        simpa using ih ht
      · simp only [List.filter_cons, Bool.not_eq_true] at hp ⊢
        simp only [hp]
        by_cases hq : q a = true
        · simp only [hq, if_true]
          exact Nat.le_succ_of_le (ih ht)
        · simp only [Bool.not_eq_true] at hq
          simp only [hq]
          exact ih ht

theorem length_filter_split {α : Type} {l : List α} {q r : α → Bool} :
    (l.filter (fun a => q a && r a)).length +
      (l.filter (fun a => q a && !(r a))).length = (l.filter q).length := by
  induction l with
  | nil => simp
  | cons a t ih =>
      rcases hq : q a with hv | hv <;> rcases hr : r a with hv2 | hv2 <;>
        simp [List.filter_cons, hq, hr, ← ih, Nat.add_assoc, Nat.add_comm,
          Nat.add_left_comm]

theorem nodup_subset_length {α : Type} {l l' : List α}
    (hn : l.Nodup) (hs : ∀ x ∈ l, x ∈ l') : l.length ≤ l'.length :=
  (List.subperm_of_subset hn hs).length_le

theorem listBefore_append {α : Type} {x y : α} {l t : List α}
    (h : listBefore x y l) : listBefore x y (l ++ t) := by
  obtain ⟨l1, l2, l3, rfl⟩ := h
  exact ⟨l1, l2, l3 ++ t, by simp⟩

theorem listBefore_concat {α : Type} {x y : α} {l : List α}
    (h : x ∈ l) : listBefore x y (l ++ [y]) := by
  obtain ⟨l1, l2, rfl⟩ := List.append_of_mem h
  exact ⟨l1, l2, [], by simp⟩

theorem mem_left_of_listBefore {α : Type} {x y : α} {l : List α}
    (h : listBefore x y l) : x ∈ l := by
  obtain ⟨l1, l2, l3, rfl⟩ := h
  simp

theorem listBefore_filterMap {α γ : Type} {f : α → Option γ} {x y : α}
    {x' y' : γ} {l : List α} (h : listBefore x y l)
    (hx : f x = some x') (hy : f y = some y') :
    listBefore x' y' (l.filterMap f) := by
  obtain ⟨l1, l2, l3, rfl⟩ := h
  refine ⟨l1.filterMap f, l2.filterMap f, l3.filterMap f, ?_⟩
  simp [List.filterMap_append, List.filterMap_cons, hx, hy]

theorem sumCh_eraseKey {k : NName} {g : Graph} {d : Int} {ch : List NName}
    (h : lookupA k g = some (d, ch)) :
    sumCh (eraseKey k g) + ch.length = sumCh g := by
  induction g with
  | nil => simp [lookupA] at h
  | cons p t ih =>
      obtain ⟨a, c⟩ := p
      by_cases hak : a = k
      · simp only [lookupA, if_pos hak, Option.some.injEq] at h
        subst h
        simp [eraseKey, if_pos hak, sumCh, Nat.add_comm]
      · simp only [lookupA, if_neg hak] at h
        simp only [eraseKey, if_neg hak, sumCh, List.map_cons, List.sum_cons]
        have := ih h
        simp only [sumCh] at this
        omega

theorem sumCh_proj_eq {g g' : Graph}
    (h : g.map (fun e => (e.1, e.2.2)) = g'.map (fun e => (e.1, e.2.2))) :
    sumCh g = sumCh g' := by
  have h2 := congrArg (List.map (fun e : NName × List NName => e.2.length)) h
  simpa [sumCh, Function.comp] using congrArg List.sum h2

theorem foldl_eraseFirst_restore {α : Type} [DecidableEq α] (xs : List α) :
    ∀ l1 l2 : List α, (∀ x ∈ xs, x ∉ l1) →
      xs.foldl (fun acc x => eraseFirst x acc) (l1 ++ (xs ++ l2)) = l1 ++ l2 := by
  induction xs with
  | nil => intro l1 l2 _; simp
  | cons x xs' ih =>
      intro l1 l2 h
      have hx : x ∉ l1 := h x (List.mem_cons_self _ _)
      have hstep : eraseFirst x (l1 ++ (x :: xs' ++ l2)) = l1 ++ (xs' ++ l2) := by
        rw [eraseFirst_append_left hx]
        simp [eraseFirst_cons_self]
      rw [List.foldl_cons]
      show List.foldl (fun acc y => eraseFirst y acc)
        (eraseFirst x (l1 ++ (x :: xs' ++ l2))) xs' = l1 ++ l2
      rw [hstep]
      exact ih l1 l2 (fun b hb => h b (List.mem_cons_of_mem _ hb))

theorem mem_of_mem_eraseKey {κ β : Type} [DecidableEq κ] {k : κ} {p : κ × β}
    {l : List (κ × β)} (h : p ∈ eraseKey k l) : p ∈ l := by
  induction l with
  | nil => simp [eraseKey] at h
  | cons q t ih =>
      obtain ⟨a, c⟩ := q
      by_cases hak : a = k
      · simp only [eraseKey, if_pos hak] at h
        exact List.mem_cons_of_mem _ h
      · simp only [eraseKey, if_neg hak, List.mem_cons] at h
        rcases h with h | h
        · exact h ▸ List.mem_cons_self _ _
        · exact List.mem_cons_of_mem _ (ih h)

theorem length_eraseFirst_mem {α : Type} [DecidableEq α] {x : α} {l : List α}
    (h : x ∈ l) : (eraseFirst x l).length + 1 = l.length := by
  induction l with
  | nil => simp at h
  | cons a t ih =>
      by_cases hax : a = x
      · simp [eraseFirst, if_pos hax]
      · have hxt : x ∈ t := by
          rcases List.mem_cons.1 h with h | h
          · exact absurd h.symm hax
          · exact h
        simp only [eraseFirst, if_neg hax, List.length_cons]
        rw [← ih hxt]

/-! ### WeakOrderedSet lemmas -/

namespace WeakOrderedSet

theorem mem_order_of_isSome {α : Type} {s : WeakOrderedSet α} (h : s.Inv)
    {oid : Nat} (hs : (lookupA oid s._items).isSome) : oid ∈ s._order := by
  obtain ⟨b, hb⟩ := Option.isSome_iff_exists.1 hs
  exact h.2.2.1 (oid, b) (mem_of_lookupA hb)

theorem keys_nodup {α : Type} {s : WeakOrderedSet α} (h : s.Inv) :
    (s._items.map Prod.fst).Nodup := h.2.2.2

theorem size_eq_items_length {α : Type} {s : WeakOrderedSet α} (h : s.Inv) :
    s.size = s._items.length := by
  have h1 : s._order.length ≤ (s._items.map Prod.fst).length :=
    nodup_subset_length h.1 (fun o ho => lookupA_isSome_iff.1 (h.2.1 o ho))
  have h2 : (s._items.map Prod.fst).length ≤ s._order.length := by
    refine nodup_subset_length (keys_nodup h) (fun k hk => ?_)
    obtain ⟨p, hp, rfl⟩ := List.mem_map.1 hk
    exact h.2.2.1 p hp
  have := Nat.le_antisymm h1 h2
  simpa [size] using this.trans (by simp)

theorem inv_add {α : Type} {s : WeakOrderedSet α} (h : s.Inv) (oid : Nat) (x : α) :
    (s.add oid x).Inv := by
  unfold add
  by_cases hs : (lookupA oid s._items).isSome
  · have hmem : oid ∈ s._order := mem_order_of_isSome h hs
    simp only [if_pos hs]
    refine ⟨?_, ?_, ?_, ?_⟩
    · rw [List.nodup_append]
      refine ⟨nodup_eraseFirst h.1, List.nodup_singleton _, ?_⟩
      intro a ha hb
      simp only [List.mem_singleton] at hb
      subst hb
      exact ((mem_eraseFirst_nodup h.1).1 ha).2 rfl
    · intro o ho
      rcases List.mem_append.1 ho with ho | ho
      · exact h.2.1 o (mem_of_mem_eraseFirst ho)
      · simp only [List.mem_singleton] at ho
        subst ho
        exact hs
    · intro p hp
      by_cases hpo : p.1 = oid
      · exact List.mem_append.2 (Or.inr (by simp [hpo]))
      · refine List.mem_append.2 (Or.inl ?_)
        exact (mem_eraseFirst_nodup h.1).2 ⟨h.2.2.1 p hp, hpo⟩
    · exact h.2.2.2
  · have hno : oid ∉ s._order := fun hmem => hs (h.2.1 oid hmem)
    have hnk : oid ∉ s._items.map Prod.fst := fun hk =>
      hs (lookupA_isSome_iff.2 hk)
    simp only [if_neg hs]
    refine ⟨?_, ?_, ?_, ?_⟩
    · rw [List.nodup_append]
      exact ⟨h.1, List.nodup_singleton _, fun a ha hb => by
        simp only [List.mem_singleton] at hb
        exact hno (hb ▸ ha)⟩
    · intro o ho
      rcases List.mem_append.1 ho with ho | ho
      · have := h.2.1 o ho
        obtain ⟨b, hb⟩ := Option.isSome_iff_exists.1 this
        simp [lookupA_append_some hb]
      · simp only [List.mem_singleton] at ho
        subst ho
        have : lookupA o s._items = none := by
          cases hq : lookupA o s._items with
          | none => rfl
          | some b => exact absurd (by simp [hq]) hs
        rw [lookupA_append_none this]
        simp [lookupA]
    · intro p hp
      rcases List.mem_append.1 hp with hp | hp
      · exact List.mem_append.2 (Or.inl (h.2.2.1 p hp))
      · simp only [List.mem_singleton] at hp
        subst hp
        exact List.mem_append.2 (Or.inr (by simp))
    · rw [List.map_append, List.nodup_append]
      exact ⟨h.2.2.2, List.nodup_singleton _, fun a ha hb => by
        simp only [List.map_cons, List.map_nil, List.mem_singleton] at hb
        exact hnk (hb ▸ ha)⟩

theorem inv_removeById {α : Type} {s : WeakOrderedSet α} (h : s.Inv) (oid : Nat) :
    (s.removeById oid).Inv := by
  unfold removeById
  by_cases hs : (lookupA oid s._items).isSome
  · simp only [if_pos hs]
    have hkeys : (eraseKey oid s._items).map Prod.fst =
        eraseFirst oid (s._items.map Prod.fst) := map_fst_eraseKey
    refine ⟨nodup_eraseFirst h.1, ?_, ?_, ?_⟩
    · intro o ho
      have hmem := (mem_eraseFirst_nodup h.1).1 ho
      rw [lookupA_eraseKey_ne hmem.2]
      exact h.2.1 o hmem.1
    · intro p hp
      have hpk : p.1 ∈ (eraseKey oid s._items).map Prod.fst :=
        List.mem_map_of_mem Prod.fst hp
      rw [hkeys] at hpk
      have := (mem_eraseFirst_nodup (keys_nodup h)).1 hpk
      refine (mem_eraseFirst_nodup h.1).2 ⟨?_, this.2⟩
      exact h.2.2.1 p (mem_of_mem_eraseKey hp)
    · rw [hkeys]
      exact nodup_eraseFirst (keys_nodup h)
  · simpa [if_neg hs] using h

theorem inv_empty {α : Type} (s : WeakOrderedSet α) : (s.empty).Inv := by
  refine ⟨List.nodup_nil, ?_, ?_, ?_⟩ <;> simp [empty]

end WeakOrderedSet

/-- C7: for any `WeakOrderedSet` built from empty and two distinct
identities, the call sequence `add(x1); add(x2); add(x1)` yields
iteration `[x2, x1]` (oldest first), `last == x1`, and length 2 —
re-adding a present identity moves it to the end without duplicating. -/
theorem wos_c7_reorder {α : Type} (x1 x2 : α) (o1 o2 : Nat) (h : o1 ≠ o2) :
    (((WeakOrderedSet.init.add o1 x1).add o2 x2).add o1 x1).iterRefs = [some x2, some x1] ∧
    (((WeakOrderedSet.init.add o1 x1).add o2 x2).add o1 x1).last = some x1 ∧
    (((WeakOrderedSet.init.add o1 x1).add o2 x2).add o1 x1).size = 2 := by
  have h3 : ¬ (o2 = o1) := fun hh => h hh.symm
  simp [WeakOrderedSet.add, WeakOrderedSet.init, WeakOrderedSet.iterRefs,
    WeakOrderedSet.last, WeakOrderedSet.size, lookupA, eraseFirst, h, h3]

/-- Witness for C7 at concrete input: two distinct objects with ids 1
and 2. -/
theorem wos_c7_reorder_witness :
    (((WeakOrderedSet.init.add 1 "x1").add 2 "x2").add 1 "x1").iterRefs
        = [some "x2", some "x1"] ∧
    (((WeakOrderedSet.init.add 1 "x1").add 2 "x2").add 1 "x1").last = some "x1" ∧
    (((WeakOrderedSet.init.add 1 "x1").add 2 "x2").add 1 "x1").size = 2 :=
  wos_c7_reorder "x1" "x2" 1 2 (by decide)

/-- C8: when the finalization callback `_remove_by_id` fires for a
tracked identity, the entry leaves both the identity map and the order
list in that one step: the length decreases by one, the identity's
lookup and order membership are gone, and iteration dereferences only
live entries. -/
theorem wos_c8_evict {α : Type} (s : WeakOrderedSet α) (oid : Nat)
    (h : s.Inv) (hmem : (lookupA oid s._items).isSome) :
    (s.removeById oid).size + 1 = s.size ∧
    lookupA oid (s.removeById oid)._items = none ∧
    oid ∉ (s.removeById oid)._order ∧
    ∀ r ∈ (s.removeById oid).iterRefs, r.isSome := by
  have hinv := WeakOrderedSet.inv_removeById h oid
  have hord : oid ∈ s._order := WeakOrderedSet.mem_order_of_isSome h hmem
  refine ⟨?_, ?_, ?_, ?_⟩
  · simp only [WeakOrderedSet.removeById, if_pos hmem, WeakOrderedSet.size]
    exact length_eraseFirst_mem hord
  · simp only [WeakOrderedSet.removeById, if_pos hmem]
    apply lookupA_eq_none_of_not_mem
    rw [map_fst_eraseKey]
    intro hk
    exact ((mem_eraseFirst_nodup (WeakOrderedSet.keys_nodup h)).1 hk).2 rfl
  · simp only [WeakOrderedSet.removeById, if_pos hmem]
    intro hk
    exact ((mem_eraseFirst_nodup h.1).1 hk).2 rfl
  · intro r hr
    obtain ⟨o, ho, rfl⟩ := List.mem_map.1 hr
    exact hinv.2.1 o ho

/-- Witness for C8 at concrete input: evicting id 1 from a two-element
set. -/
theorem wos_c8_evict_witness :
    (((WeakOrderedSet.init.add 1 "x1").add 2 "x2").removeById 1).size + 1
        = ((WeakOrderedSet.init.add 1 "x1").add 2 "x2").size ∧
    lookupA 1 (((WeakOrderedSet.init.add 1 "x1").add 2 "x2").removeById 1)._items = none ∧
    1 ∉ (((WeakOrderedSet.init.add 1 "x1").add 2 "x2").removeById 1)._order ∧
    ∀ r ∈ (((WeakOrderedSet.init.add 1 "x1").add 2 "x2").removeById 1).iterRefs, r.isSome :=
  wos_c8_evict ((WeakOrderedSet.init.add 1 "x1").add 2 "x2") 1 (by decide) (by decide)

/-- C10: every operation preserves the structural invariant (order list
duplicate-free and in bijection with the identity-map keys), and under
it the length, membership, iteration and `last` accessors agree. -/
theorem wos_c10_invariant {α : Type} (s : WeakOrderedSet α) (oid : Nat) (x : α)
    (h : s.Inv) :
    (s.add oid x).Inv ∧ (s.removeById oid).Inv ∧ (s.remove oid).Inv ∧ (s.empty).Inv ∧
    s.size = s._items.length ∧
    (∀ i : Nat, s.containsId i = true ↔ i ∈ s._order) ∧
    (∀ r ∈ s.iterRefs, r.isSome) ∧
    (s.last.isSome ↔ s.size ≠ 0) := by
  refine ⟨WeakOrderedSet.inv_add h oid x, WeakOrderedSet.inv_removeById h oid,
    WeakOrderedSet.inv_removeById h oid, WeakOrderedSet.inv_empty s,
    WeakOrderedSet.size_eq_items_length h, ?_, ?_, ?_⟩
  · intro i
    constructor
    · intro hc
      exact WeakOrderedSet.mem_order_of_isSome h (by simpa [WeakOrderedSet.containsId] using hc)
    · intro hm
      simpa [WeakOrderedSet.containsId] using h.2.1 i hm
  · intro r hr
    obtain ⟨o, ho, rfl⟩ := List.mem_map.1 hr
    exact h.2.1 o ho
  · rcases List.eq_nil_or_concat' s._order with hord | ⟨t, b, hord⟩
    · simp [WeakOrderedSet.last, WeakOrderedSet.size, hord]
    · have hb : b ∈ s._order := by simp [hord]
      have : s._order.getLast? = some b := by simp [hord]
      simp only [WeakOrderedSet.last, this, WeakOrderedSet.size, hord]
      have := h.2.1 b hb
      simp [this]
  
/-- Witness for C10 at concrete input. -/
theorem wos_c10_invariant_witness :
    (((WeakOrderedSet.init.add 1 "x1").add 2 "x2").add 1 "x1").Inv ∧
    ((((WeakOrderedSet.init.add 1 "x1").add 2 "x2").add 1 "x1").removeById 1).Inv ∧
    ((((WeakOrderedSet.init.add 1 "x1").add 2 "x2").add 1 "x1").remove 1).Inv ∧
    ((((WeakOrderedSet.init.add 1 "x1").add 2 "x2").add 1 "x1").empty).Inv ∧
    (((WeakOrderedSet.init.add 1 "x1").add 2 "x2").add 1 "x1").size
        = (((WeakOrderedSet.init.add 1 "x1").add 2 "x2").add 1 "x1")._items.length ∧
    (∀ i : Nat, (((WeakOrderedSet.init.add 1 "x1").add 2 "x2").add 1 "x1").containsId i = true
        ↔ i ∈ (((WeakOrderedSet.init.add 1 "x1").add 2 "x2").add 1 "x1")._order) ∧
    (∀ r ∈ (((WeakOrderedSet.init.add 1 "x1").add 2 "x2").add 1 "x1").iterRefs, r.isSome) ∧
    ((((WeakOrderedSet.init.add 1 "x1").add 2 "x2").add 1 "x1").last.isSome
        ↔ (((WeakOrderedSet.init.add 1 "x1").add 2 "x2").add 1 "x1").size ≠ 0) :=
  wos_c10_invariant (((WeakOrderedSet.init.add 1 "x1").add 2 "x2").add 1 "x1") 1 "x1" (by decide)

/-! ### TopologicalSorter: purity, default policy, replacement semantics -/

theorem isEmpty_false_of_ne_nil {α : Type} {l : List α} (h : l ≠ []) :
    l.isEmpty = false := by
  cases l with
  | nil => exact absurd rfl h
  | cons a t => rfl

theorem eraseFirst_append_self {α : Type} [DecidableEq α] {x : α} {l : List α}
    (h : x ∉ l) : eraseFirst x (l ++ [x]) = l := by
  rw [eraseFirst_append_left h, eraseFirst_cons_self, List.append_nil]

theorem foldl_erase_mapped {α : Type} [DecidableEq α] (f : NName → α)
    (la : List NName) (o0 rest : List α) (h : ∀ u ∈ la, f u ∉ o0) :
    la.foldl (fun o u => eraseFirst (f u) o) (o0 ++ (la.map f ++ rest)) = o0 ++ rest := by
  have h' : ∀ p ∈ la.map f, p ∉ o0 := by
    intro p hp
    obtain ⟨u, hu, rfl⟩ := List.mem_map.1 hp
    exact h u hu
  calc la.foldl (fun o u => eraseFirst (f u) o) (o0 ++ (la.map f ++ rest))
      = (la.map f).foldl (fun o p => eraseFirst p o) (o0 ++ (la.map f ++ rest)) :=
        (List.foldl_map f (fun o p => eraseFirst p o) la _).symm
    _ = o0 ++ rest := foldl_eraseFirst_restore _ o0 rest h'

/-- Flattened characterization of `remove`: the net effect of the
method body on every field. -/
theorem remove_eq {V : Type} (s : TopologicalSorter V) (name : NName) :
    s.remove name =
      { names := eraseFirst name s.names,
        name2val := eraseKey name s.name2val,
        name2after := eraseKey name s.name2after,
        name2before := eraseKey name s.name2before,
        req_after := if ((lookupA name s.name2after).getD []).isEmpty then s.req_after
          else eraseFirst name s.req_after,
        req_before := if ((lookupA name s.name2before).getD []).isEmpty then s.req_before
          else eraseFirst name s.req_before,
        order :=
          (fun o1 => if ((lookupA name s.name2before).getD []).isEmpty then o1
            else ((lookupA name s.name2before).getD []).foldl
              (fun o u => eraseFirst (name, u) o) o1)
          (if ((lookupA name s.name2after).getD []).isEmpty then s.order
            else ((lookupA name s.name2after).getD []).foldl
              (fun o u => eraseFirst (u, name) o) s.order),
        default_before := s.default_before, default_after := s.default_after,
        first := s.first, last := s.last } := by
  by_cases h1 : ((lookupA name s.name2after).getD []).isEmpty <;>
    by_cases h2 : ((lookupA name s.name2before).getD []).isEmpty <;>
      simp [TopologicalSorter.remove, h1, h2]

/-- In `add`, the registered name always ends the `names` list. -/
theorem add_names {V : Type} (s : TopologicalSorter V) (n : NName) (v : V)
    (a b : Option (List NName)) :
    (s.add n v a b).names = (if n ∈ s.names then s.remove n else s).names ++ [n] := by
  unfold TopologicalSorter.add
  dsimp only
  generalize TopologicalSorter.effPair _ _ a b = ab
  obtain ⟨a', b'⟩ := ab
  cases a' <;> cases b' <;> rfl

/-- Explicit form of `add` on a state not containing the name: the
effect of the method body on every field, as a function of the
effective `after`/`before` pair. -/
theorem add_eq_fresh {V : Type} (s : TopologicalSorter V) (n : NName) (v : V)
    (a b : Option (List NName)) (hn : n ∉ s.names) {a' b' : Option (List NName)}
    (hEP : TopologicalSorter.effPair s.default_after s.default_before a b = (a', b')) :
    s.add n v a b =
      { names := s.names ++ [n],
        name2val := setA n v s.name2val,
        name2after := match a' with
          | none => s.name2after
          | some l => setA n l s.name2after,
        req_after := match a' with
          | none => s.req_after
          | some _ => insertS n s.req_after,
        name2before := match b' with
          | none => s.name2before
          | some l => setA n l s.name2before,
        req_before := match b' with
          | none => s.req_before
          | some _ => insertS n s.req_before,
        order := (match a' with
            | none => s.order
            | some l => s.order ++ l.map (fun u => (u, n)))
          ++ (match b' with
            | none => []
            | some l => l.map (fun o => (n, o))),
        default_before := s.default_before, default_after := s.default_after,
        first := s.first, last := s.last } := by
  unfold TopologicalSorter.add
  rw [if_neg hn]
  dsimp only
  simp only [hEP]
  cases a' <;> cases b' <;> simp

/-- Removing a freshly added name restores the original state, provided
the entry's effective constraint lists are not the degenerate empty
tuple and none of its edges duplicates an edge already recorded. -/
theorem add_remove_cancel {V : Type} (s : TopologicalSorter V) (n : NName) (v : V)
    (a b : Option (List NName))
    (hn : n ∉ s.names) (hra : n ∉ s.req_after) (hrb : n ∉ s.req_before)
    (ha : lookupA n s.name2after = none) (hb : lookupA n s.name2before = none)
    (hv : lookupA n s.name2val = none)
    (hfa : ∀ u ∈ ((TopologicalSorter.effPair s.default_after s.default_before a b).1.getD []),
      (u, n) ∉ s.order)
    (hfb : ∀ o ∈ ((TopologicalSorter.effPair s.default_after s.default_before a b).2.getD []),
      (n, o) ∉ s.order)
    (hea : (TopologicalSorter.effPair s.default_after s.default_before a b).1 ≠ some [])
    (heb : (TopologicalSorter.effPair s.default_after s.default_before a b).2 ≠ some []) :
    (s.add n v a b).remove n = s := by
  rcases hEP : TopologicalSorter.effPair s.default_after s.default_before a b with ⟨a', b'⟩
  rw [hEP] at hfa hfb hea heb
  rw [add_eq_fresh s n v a b hn hEP, remove_eq]
  rcases a' with _ | la <;> rcases b' with _ | lb
  · simp [eraseFirst_append_self hn, eraseKey_setA_none hv, eraseKey_of_none ha,
      eraseKey_of_none hb, ha, hb]
  · have hlb : lb ≠ [] := fun h => heb (by rw [h])
    have hfb' : ∀ o ∈ lb, (n, o) ∉ s.order := by simpa using hfb
    have h2 := foldl_erase_mapped (fun o => (n, o)) lb s.order [] hfb'
    simp only [List.append_nil] at h2
    simp [eraseFirst_append_self hn, eraseKey_setA_none hv, eraseKey_of_none ha,
      eraseKey_setA_none hb, ha, lookupA_setA_self, isEmpty_false_of_ne_nil hlb,
      insertS, hrb, eraseFirst_append_self hrb, h2]
  · have hla : la ≠ [] := fun h => hea (by rw [h])
    have hfa' : ∀ u ∈ la, (u, n) ∉ s.order := by simpa using hfa
    have h1 := foldl_erase_mapped (fun u => (u, n)) la s.order [] hfa'
    simp only [List.append_nil] at h1
    simp [eraseFirst_append_self hn, eraseKey_setA_none hv, eraseKey_setA_none ha,
      eraseKey_of_none hb, hb, lookupA_setA_self, isEmpty_false_of_ne_nil hla,
      insertS, hra, eraseFirst_append_self hra, h1]
  · have hla : la ≠ [] := fun h => hea (by rw [h])
    have hlb : lb ≠ [] := fun h => heb (by rw [h])
    have hfa' : ∀ u ∈ la, (u, n) ∉ s.order := by simpa using hfa
    have hfb' : ∀ o ∈ lb, (n, o) ∉ s.order := by simpa using hfb
    have h1 := foldl_erase_mapped (fun u => (u, n)) la s.order
      (lb.map (fun o => (n, o))) hfa'
    have h2 := foldl_erase_mapped (fun o => (n, o)) lb s.order [] hfb'
    simp only [List.append_nil] at h2
    simp [eraseFirst_append_self hn, eraseKey_setA_none hv, eraseKey_setA_none ha,
      eraseKey_setA_none hb, lookupA_setA_self, isEmpty_false_of_ne_nil hla,
      isEmpty_false_of_ne_nil hlb, insertS, hra, hrb, eraseFirst_append_self hra,
      eraseFirst_append_self hrb, List.append_assoc, h1, h2]

/-- Re-adding a name right away reduces to adding onto the
`remove`-result. -/
theorem add_of_mem {V : Type} (s' : TopologicalSorter V) (n : NName) (v : V)
    (a b : Option (List NName)) (h : n ∈ s'.names) (h2 : n ∉ (s'.remove n).names) :
    s'.add n v a b = (s'.remove n).add n v a b := by
  conv_lhs => rw [TopologicalSorter.add]
  conv_rhs => rw [TopologicalSorter.add]
  rw [if_pos h, if_neg h2]

/-- C5 (counterexample): re-adding is not always as if the first add
never happened.  With `add('a', 1, after=())` (empty tuple), `remove`
skips the `req_after` cleanup (`if after:` is false on an empty tuple),
so after the re-add `sorted()` fails with an unsatisfied-after error,
while the counterfactual that never saw the first add succeeds. -/
theorem tsorter_c5_counterexample :
    TopologicalSorter.sortedResult exC5c
        = .error (.unsatisfiedAfter [.user "a"]) ∧
      TopologicalSorter.sortedResult exC5cf = .ok [(.user "a", 2)] ∧
      exC5c.req_after ≠ exC5cf.req_after := by
  refine ⟨rfl, rfl, ?_⟩
  decide

/-- C5 (amended): under the conditions that make the first entry's
bookkeeping fully erasable — its effective constraint lists, when
present, are non-empty, and none of its edges duplicates an edge
already in `order` — re-adding the name yields exactly the state of a
single add: the first add leaves no trace in the sorter state, hence
none in `sorted()`. -/
theorem tsorter_c5_amended {V : Type} (s : TopologicalSorter V) (n : NName)
    (v1 v2 : V) (a1 b1 a2 b2 : Option (List NName))
    (hn : n ∉ s.names) (hra : n ∉ s.req_after) (hrb : n ∉ s.req_before)
    (ha : lookupA n s.name2after = none) (hb : lookupA n s.name2before = none)
    (hv : lookupA n s.name2val = none)
    (hfa : ∀ u ∈ ((TopologicalSorter.effPair s.default_after s.default_before a1 b1).1.getD []),
      (u, n) ∉ s.order)
    (hfb : ∀ o ∈ ((TopologicalSorter.effPair s.default_after s.default_before a1 b1).2.getD []),
      (n, o) ∉ s.order)
    (hea : (TopologicalSorter.effPair s.default_after s.default_before a1 b1).1 ≠ some [])
    (heb : (TopologicalSorter.effPair s.default_after s.default_before a1 b1).2 ≠ some []) :
    (s.add n v1 a1 b1).add n v2 a2 b2 = s.add n v2 a2 b2 := by
  have hc : (s.add n v1 a1 b1).remove n = s :=
    add_remove_cancel s n v1 a1 b1 hn hra hrb ha hb hv hfa hfb hea heb
  have hmem : n ∈ (s.add n v1 a1 b1).names := by
    rw [add_names]
    simp
  have h2 : n ∉ ((s.add n v1 a1 b1).remove n).names := by
    rw [hc]
    exact hn
  rw [add_of_mem _ n v2 a2 b2 hmem h2, hc]

/-- Witness for C5 (amended): against a sorter holding only `b`, add
`a` with `after='b'` and immediately re-add `a` with no constraints;
the result equals the single-add state. -/
theorem tsorter_c5_amended_witness :
    ((buildTS [⟨.user "b", 2, none, none⟩]).add (.user "a") 1 (some [.user "b"]) none).add
        (.user "a") 3 none none
      = (buildTS [⟨.user "b", 2, none, none⟩]).add (.user "a") 3 none none :=
  tsorter_c5_amended (buildTS [⟨.user "b", 2, none, none⟩]) (.user "a") 1 3
    (some [.user "b"]) none none none (by decide) (by decide) (by decide)
    (by decide) (by decide) (by decide) (by decide) (by decide) (by decide) (by decide)

/-- C6: `sorted()` and `values()` assign to no field of the sorter, so
the post-state equals the input state, and for a fixed sequence of
`add` calls a repeated `sorted()` call returns the identical output. -/
theorem tsorter_c6_pure {V : Type} (s : TopologicalSorter V) (ops : List (AddOp V)) :
    (TopologicalSorter.sortedM s).2 = s ∧ (TopologicalSorter.valuesM s).2 = s ∧
      (TopologicalSorter.sortedM (buildTS ops)).1
        = (TopologicalSorter.sortedM ((TopologicalSorter.sortedM (buildTS ops)).2)).1 :=
  ⟨rfl, rfl, rfl⟩

/-- C9: the default ordering policy applies only when both `after` and
`before` are `None`; with only `after` supplied, no `before`
bookkeeping happens and the only new edges are the `(u, name)` arcs of
the `after` list — in particular no `(name, LAST)` edge; symmetrically
with only `before` supplied. -/
theorem tsorter_c9_defaults {V : Type} (s : TopologicalSorter V) (n : NName) (v : V)
    (l : List NName) :
    ((s.add n v (some l) none).name2before
        = (if n ∈ s.names then s.remove n else s).name2before
      ∧ (s.add n v (some l) none).req_before
        = (if n ∈ s.names then s.remove n else s).req_before
      ∧ (s.add n v (some l) none).order
        = (if n ∈ s.names then s.remove n else s).order ++ l.map (fun u => (u, n)))
    ∧ ((s.add n v none (some l)).name2after
        = (if n ∈ s.names then s.remove n else s).name2after
      ∧ (s.add n v none (some l)).req_after
        = (if n ∈ s.names then s.remove n else s).req_after
      ∧ (s.add n v none (some l)).order
        = (if n ∈ s.names then s.remove n else s).order ++ l.map (fun o => (n, o))) := by
  refine ⟨⟨?_, ?_, ?_⟩, ⟨?_, ?_, ?_⟩⟩ <;>
    simp [TopologicalSorter.add, TopologicalSorter.effPair]

/-! ### The Kahn traversal: worklist discipline (C1) -/

theorem kahnChild_foldl_roots (cs : List NName) :
    ∀ (g : Graph) (r : List NName), ∃ new : List NName,
      (cs.foldl TopologicalSorter.kahnChild (g, r)).2 = new ++ r ∧
      ∀ c ∈ new, c ∈ cs := by
  induction cs with
  | nil =>
      intro g r
      exact ⟨[], rfl, by simp⟩
  | cons c cs' ih =>
      intro g r
      simp only [List.foldl_cons]
      rcases hl : lookupA c g with _ | pr
      · have hstep : TopologicalSorter.kahnChild (g, r) c = (g, r) := by
          simp [TopologicalSorter.kahnChild, hl]
        rw [hstep]
        obtain ⟨new, hnew, hsub⟩ := ih g r
        exact ⟨new, hnew, fun x hx => List.mem_cons_of_mem _ (hsub x hx)⟩
      · by_cases hz : pr.1 - 1 = 0
        · have hstep : TopologicalSorter.kahnChild (g, r) c
              = (setA c (pr.1 - 1, pr.2) g, c :: r) := by
            simp [TopologicalSorter.kahnChild, hl, hz]
          rw [hstep]
          obtain ⟨new, hnew, hsub⟩ := ih (setA c (pr.1 - 1, pr.2) g) (c :: r)
          refine ⟨new ++ [c], by rw [hnew]; simp, ?_⟩
          intro x hx
          rcases List.mem_append.1 hx with hx | hx
          · exact List.mem_cons_of_mem _ (hsub x hx)
          · simp only [List.mem_singleton] at hx
            exact hx ▸ List.mem_cons_self _ _
        · have hstep : TopologicalSorter.kahnChild (g, r) c
              = (setA c (pr.1 - 1, pr.2) g, r) := by
            simp [TopologicalSorter.kahnChild, hl, hz]
          rw [hstep]
          obtain ⟨new, hnew, hsub⟩ := ih (setA c (pr.1 - 1, pr.2) g) r
          exact ⟨new, hnew, fun x hx => List.mem_cons_of_mem _ (hsub x hx)⟩

/-- C1 (amended): at each step the traversal emits the *head* of the
worklist, and the successors freed by that emission are *prepended* to
the worklist, ahead of every already-waiting candidate.  So the order
is deterministic, but ties between simultaneously available roots are
resolved most-recently-freed-first, not by registration order. -/
theorem tsorter_c1_amended (fuel : Nat) (g : Graph) (root : NName)
    (rest acc : List NName) :
    ∃ freed gAfter,
      TopologicalSorter.kahnLoop (fuel + 1) g (root :: rest) acc
        = TopologicalSorter.kahnLoop fuel gAfter (freed ++ rest) (acc ++ [root]) ∧
      ∀ c ∈ freed, c ∈ TopologicalSorter.childrenOf g root := by
  obtain ⟨new, hnew, hsub⟩ :=
    kahnChild_foldl_roots (TopologicalSorter.childrenOf g root) g rest
  refine ⟨new,
    eraseKey root
      ((TopologicalSorter.childrenOf g root).foldl TopologicalSorter.kahnChild (g, rest)).1,
    ?_, hsub⟩
  conv_lhs => rw [TopologicalSorter.kahnLoop]
  rw [hnew]

/-- C1 (counterexample): with `a` registered, then `b` after `a`, then
`c` after `a`, entries `b` and `c` become available simultaneously when
`a` is emitted; the insertion-order tie-break required by the claim
would emit `b` (registered second) before `c` (registered third), but
the code emits `c` first: `sorted()` is `[a, c, b]`. -/
theorem tsorter_c1_counterexample :
    exC1.names = [.user "a", .user "b", .user "c"] ∧
    TopologicalSorter.sortedResult exC1
      = .ok [(.user "a", 1), (.user "c", 3), (.user "b", 2)] :=
  ⟨rfl, rfl⟩

/-! ### Validation of declared requirements (C2) -/

theorem arc_fold_has (ns : List NName) (ps : List (NName × NName)) :
    ∀ st : TopologicalSorter.BuildState,
      (∀ x, x ∈ (ps.foldl (TopologicalSorter.arcStep ns) st).hasB ↔
        (x ∈ st.hasB ∨ ∃ p ∈ ps, p.1 = x ∧ p.1 ∈ ns ∧ p.2 ∈ ns)) ∧
      (∀ x, x ∈ (ps.foldl (TopologicalSorter.arcStep ns) st).hasA ↔
        (x ∈ st.hasA ∨ ∃ p ∈ ps, p.2 = x ∧ p.1 ∈ ns ∧ p.2 ∈ ns)) := by
  induction ps with
  | nil =>
      intro st
      constructor <;> intro x <;> simp
  | cons q ps' ih =>
      intro st
      simp only [List.foldl_cons]
      by_cases hq : q.1 ∈ ns ∧ q.2 ∈ ns
      · have hB : (TopologicalSorter.arcStep ns st q).hasB = insertS q.1 st.hasB := by
          simp [TopologicalSorter.arcStep, hq]
        have hA : (TopologicalSorter.arcStep ns st q).hasA = insertS q.2 st.hasA := by
          simp [TopologicalSorter.arcStep, hq]
        obtain ⟨ihB, ihA⟩ := ih (TopologicalSorter.arcStep ns st q)
        constructor
        · intro x
          rw [ihB, hB, mem_insertS]
          constructor
          · rintro ((h | h) | ⟨p, hp, hpx⟩)
            · exact Or.inl h
            · exact Or.inr ⟨q, List.mem_cons_self _ _, h.symm, hq.1, hq.2⟩
            · exact Or.inr ⟨p, List.mem_cons_of_mem _ hp, hpx⟩
          · rintro (h | ⟨p, hp, hp1, hp2, hp3⟩)
            · exact Or.inl (Or.inl h)
            · rcases List.mem_cons.1 hp with rfl | hp
              · exact Or.inl (Or.inr hp1.symm)
              · exact Or.inr ⟨p, hp, hp1, hp2, hp3⟩
        · intro x
          rw [ihA, hA, mem_insertS]
          constructor
          · rintro ((h | h) | ⟨p, hp, hpx⟩)
            · exact Or.inl h
            · exact Or.inr ⟨q, List.mem_cons_self _ _, h.symm, hq.1, hq.2⟩
            · exact Or.inr ⟨p, List.mem_cons_of_mem _ hp, hpx⟩
          · rintro (h | ⟨p, hp, hp1, hp2, hp3⟩)
            · exact Or.inl (Or.inl h)
            · rcases List.mem_cons.1 hp with rfl | hp
              · exact Or.inl (Or.inr hp1.symm)
              · exact Or.inr ⟨p, hp, hp1, hp2, hp3⟩
      · have hstep : TopologicalSorter.arcStep ns st q = st := by
          simp [TopologicalSorter.arcStep, hq]
        rw [hstep]
        obtain ⟨ihB, ihA⟩ := ih st
        constructor
        · intro x
          rw [ihB]
          constructor
          · rintro (h | ⟨p, hp, hpx⟩)
            · exact Or.inl h
            · exact Or.inr ⟨p, List.mem_cons_of_mem _ hp, hpx⟩
          · rintro (h | ⟨p, hp, hp1, hp2, hp3⟩)
            · exact Or.inl h
            · rcases List.mem_cons.1 hp with rfl | hp
              · exact absurd ⟨hp2, hp3⟩ hq
              · exact Or.inr ⟨p, hp, hp1, hp2, hp3⟩
        · intro x
          rw [ihA]
          constructor
          · rintro (h | ⟨p, hp, hpx⟩)
            · exact Or.inl h
            · exact Or.inr ⟨p, List.mem_cons_of_mem _ hp, hpx⟩
          · rintro (h | ⟨p, hp, hp1, hp2, hp3⟩)
            · exact Or.inl h
            · rcases List.mem_cons.1 hp with rfl | hp
              · exact absurd ⟨hp2, hp3⟩ hq
              · exact Or.inr ⟨p, hp, hp1, hp2, hp3⟩

theorem buildGraph_hasB {V : Type} (s : TopologicalSorter V) (x : NName) :
    x ∈ (TopologicalSorter.buildGraph s).hasB ↔
      ∃ p ∈ TopologicalSorter.fullOrder s, p.1 = x ∧
        p.1 ∈ TopologicalSorter.fullNames s ∧ p.2 ∈ TopologicalSorter.fullNames s := by
  unfold TopologicalSorter.buildGraph
  rw [(arc_fold_has _ _ _).1 x]
  simp

theorem buildGraph_hasA {V : Type} (s : TopologicalSorter V) (x : NName) :
    x ∈ (TopologicalSorter.buildGraph s).hasA ↔
      ∃ p ∈ TopologicalSorter.fullOrder s, p.2 = x ∧
        p.1 ∈ TopologicalSorter.fullNames s ∧ p.2 ∈ TopologicalSorter.fullNames s := by
  unfold TopologicalSorter.buildGraph
  rw [(arc_fold_has _ _ _).2 x]
  simp

/-- C2 (amended): full characterization of the requirement validation.
Method `sorted()` raises the unsatisfied-before `ConfigurationError`
exactly when some entry that declared a `before` requirement has no
recorded pair leaving it with both endpoints present, and the error
names exactly those entries; it raises the unsatisfied-after error
exactly when every `before` requirement has such a pair but some entry
that declared an `after` requirement has no recorded pair entering it,
again naming exactly those entries; and when every declared requirement
has at least one recorded pair, validation passes — the sort returns a
result or a cycle error, silently dropping any individual constraint
pair with an absent endpoint. -/
theorem tsorter_c2_amended {V : Type} (s : TopologicalSorter V) :
    (∀ ns, TopologicalSorter.sortedResult s = .error (.unsatisfiedBefore ns) ↔
      (ns = s.req_before.filter (fun n => decide (¬ SatB s n)) ∧ ns ≠ [])) ∧
    (∀ ns, TopologicalSorter.sortedResult s = .error (.unsatisfiedAfter ns) ↔
      (ns = s.req_after.filter (fun n => decide (¬ SatA s n)) ∧ ns ≠ [] ∧
        ∀ r ∈ s.req_before, SatB s r)) ∧
    ((∀ r ∈ s.req_before, SatB s r) → (∀ x ∈ s.req_after, SatA s x) →
      (∃ res, TopologicalSorter.sortedResult s = .ok res) ∨
      (∃ deps, TopologicalSorter.sortedResult s = .error (.cyclic deps))) := by
  have hBeq : s.req_before.filter
      (fun n => decide (n ∉ (TopologicalSorter.buildGraph s).hasB))
      = s.req_before.filter (fun n => decide (¬ SatB s n)) := by
    refine List.filter_congr (fun n _ => ?_)
    refine decide_eq_decide.mpr (not_congr ?_)
    unfold SatB
    exact buildGraph_hasB s n
  have hAeq : s.req_after.filter
      (fun n => decide (n ∉ (TopologicalSorter.buildGraph s).hasA))
      = s.req_after.filter (fun n => decide (¬ SatA s n)) := by
    refine List.filter_congr (fun n _ => ?_)
    refine decide_eq_decide.mpr (not_congr ?_)
    unfold SatA
    exact buildGraph_hasA s n
  have hBnil : s.req_before.filter (fun n => decide (¬ SatB s n)) = [] ↔
      ∀ r ∈ s.req_before, SatB s r := by
    rw [List.filter_eq_nil_iff]
    constructor
    · intro h r hr
      have := h r hr
      simpa using this
    · intro h r hr
      simpa using h r hr
  have hAnil : s.req_after.filter (fun n => decide (¬ SatA s n)) = [] ↔
      ∀ x ∈ s.req_after, SatA s x := by
    rw [List.filter_eq_nil_iff]
    constructor
    · intro h x hx
      have := h x hx
      simpa using this
    · intro h x hx
      simpa using h x hx
  by_cases hB : s.req_before.filter (fun n => decide (¬ SatB s n)) = []
  · by_cases hA : s.req_after.filter (fun n => decide (¬ SatA s n)) = []
    · have hres : TopologicalSorter.sortedResult s
          = (if (TopologicalSorter.sortedCore s).2.isEmpty then
              .ok ((TopologicalSorter.sortedCore s).1.filterMap (fun n =>
                if n ∈ s.names then (lookupA n s.name2val).map (fun v => (n, v))
                else none))
            else .error (.cyclic ((TopologicalSorter.sortedCore s).2.map
              (fun p => (p.1, p.2.2))))) := by
        unfold TopologicalSorter.sortedResult
        dsimp only
        rw [hBeq, hAeq, hB, hA]
        rfl
      refine ⟨?_, ?_, ?_⟩
      · intro ns
        rw [hres]
        constructor
        · intro h
          split at h <;> simp at h
        · rintro ⟨h1, h2⟩
          rw [hB] at h1
          exact absurd h1 h2
      · intro ns
        rw [hres]
        constructor
        · intro h
          split at h <;> simp at h
        · rintro ⟨h1, h2, h3⟩
          rw [hA] at h1
          exact absurd h1 h2
      · intro h1 h2
        by_cases hc : (TopologicalSorter.sortedCore s).2.isEmpty
        · exact Or.inl ⟨_, by rw [hres, if_pos hc]⟩
        · exact Or.inr ⟨_, by rw [hres, if_neg hc]⟩
    · have hres : TopologicalSorter.sortedResult s
          = .error (.unsatisfiedAfter
              (s.req_after.filter (fun n => decide (¬ SatA s n)))) := by
        unfold TopologicalSorter.sortedResult
        dsimp only
        rw [hBeq, hAeq, hB]
        simp [isEmpty_false_of_ne_nil hA]
        intro h
        exact absurd (hAnil.2 h) hA
      refine ⟨?_, ?_, ?_⟩
      · intro ns
        rw [hres]
        constructor
        · intro h
          simp at h
        · rintro ⟨h1, h2⟩
          rw [hB] at h1
          exact absurd h1 h2
      · intro ns
        rw [hres]
        constructor
        · intro h
          simp only [Except.error.injEq, SortError.unsatisfiedAfter.injEq] at h
          exact ⟨h.symm, by rw [← h]; exact hA, hBnil.1 hB⟩
        · rintro ⟨h1, h2, h3⟩
          rw [h1]
        
      · intro h1 h2
        exact absurd (hAnil.2 h2) hA
  · have hres : TopologicalSorter.sortedResult s
        = .error (.unsatisfiedBefore
            (s.req_before.filter (fun n => decide (¬ SatB s n)))) := by
      unfold TopologicalSorter.sortedResult
      dsimp only
      rw [hBeq]
      simp [isEmpty_false_of_ne_nil hB]
      intro h
      exact absurd (hBnil.2 h) hB
    refine ⟨?_, ?_, ?_⟩
    · intro ns
      rw [hres]
      constructor
      · intro h
        simp only [Except.error.injEq, SortError.unsatisfiedBefore.injEq] at h
        exact ⟨h.symm, by rw [← h]; exact hB⟩
      · rintro ⟨h1, h2⟩
        rw [h1]
    · intro ns
      rw [hres]
      constructor
      · intro h
        simp at h
      · rintro ⟨h1, h2, h3⟩
        exact absurd (hBnil.2 h3) hB
    · intro h1 h2
      exact absurd (hBnil.2 h1) hB

/-- Witness for C2 (amended) at the concrete input of the claim:
adding entry a with value 1 after a name that was never added makes
`sorted()` fail with the unsatisfied-after error naming exactly a. -/
theorem tsorter_c2_amended_witness :
    TopologicalSorter.sortedResult exC2w
        = .error (.unsatisfiedAfter [.user "a"]) ∧
      NName.user "a" ∈ [NName.user "a"] :=
  ⟨((tsorter_c2_amended exC2w).2.1 [.user "a"]).2
      ⟨by decide, by decide, by decide⟩,
    by decide⟩

/-- C2 (counterexample): claim C2 as stated is false — entry `a`
declares `after=('b', 'missing')` with `missing` absent from the
graph, yet `sorted()` succeeds: the unreachable constraint is silently
dropped because the arc from `b` already satisfies the `has_after`
check. -/
theorem tsorter_c2_counterexample :
    NName.user "missing" ∉ exC2c.names ∧
    lookupA (.user "a") exC2c.name2after = some [.user "b", .user "missing"] ∧
    TopologicalSorter.sortedResult exC2c = .ok [(.user "b", 2), (.user "a", 1)] :=
  ⟨by decide, rfl, rfl⟩

/-! ### The Kahn traversal: invariants (C3, C4) -/

theorem proj_setA {k : NName} {g : Graph} {d d' : Int} {ch : List NName}
    (h : lookupA k g = some (d, ch)) :
    (setA k (d', ch) g).map (fun e => (e.1, e.2.2))
      = g.map (fun e => (e.1, e.2.2)) := by
  induction g with
  | nil => simp [lookupA] at h
  | cons p t ih =>
      obtain ⟨a, c⟩ := p
      by_cases hak : a = k
      · subst hak
        have h' : c = (d, ch) := by simpa [lookupA] using h
        subst h'
        simp [setA]
      · simp only [lookupA, if_neg hak] at h
        simp [setA, if_neg hak, ih h]

theorem countL_children (A : List (NName × NName)) (root n : NName) :
    countL n ((A.filter (fun p => decide (p.1 = root))).map Prod.snd)
      = (A.filter (fun p => decide (p.1 = root) && decide (p.2 = n))).length := by
  rw [countL_map, List.filter_filter]
  congr 1
  refine List.filter_congr (fun a _ => ?_)
  cases h1 : decide (a.1 = root) <;> cases h2 : decide (a.2 = n) <;> simp [h1, h2]

theorem arcsInto_erase (A : List (NName × NName)) (g g2 : Graph) (root n : NName)
    (hkey : ∀ k, (lookupA k g2).isSome ↔ ((lookupA k g).isSome ∧ k ≠ root))
    (hroot : (lookupA root g).isSome) :
    (arcsInto A g2 n : Int)
      = (arcsInto A g n : Int)
        - ((A.filter (fun p => decide (p.1 = root) && decide (p.2 = n))).length : Int) := by
  have hbool : ∀ p : NName × NName,
      ((lookupA p.1 g2).isSome : Bool)
        = ((lookupA p.1 g).isSome && !(decide (p.1 = root))) := by
    intro p
    by_cases hr : p.1 = root
    · have h1 : lookupA p.1 g2 = none := by
        cases hq : lookupA p.1 g2 with
        | none => rfl
        | some b => exact absurd ((hkey p.1).1 (by simp [hq])).2 (by simp [hr])
      rw [hr] at h1
      simp [h1, hr]
    · cases h : (lookupA p.1 g).isSome with
      | false =>
          have h1 : (lookupA p.1 g2).isSome = false := by
            cases h2 : (lookupA p.1 g2).isSome with
            | false => rfl
            | true =>
                have := ((hkey p.1).1 h2).1
                rw [h] at this
                exact absurd this (by simp)
          simp [h1, h, hr]
      | true =>
          have h1 : (lookupA p.1 g2).isSome = true := (hkey p.1).2 ⟨h, hr⟩
          simp [h1, h, hr]
  have hfilter : A.filter (fun p => decide (p.2 = n) && (lookupA p.1 g2).isSome)
      = A.filter (fun p =>
          (decide (p.2 = n) && (lookupA p.1 g).isSome) && !(decide (p.1 = root))) := by
    refine List.filter_congr (fun p _ => ?_)
    rw [hbool p, Bool.and_assoc]
  have hmid : A.filter (fun p =>
        (decide (p.2 = n) && (lookupA p.1 g).isSome) && decide (p.1 = root))
      = A.filter (fun p => decide (p.1 = root) && decide (p.2 = n)) := by
    refine List.filter_congr (fun p _ => ?_)
    by_cases hr : p.1 = root
    · cases h2 : decide (p.2 = n) <;> simp [hr, hroot, h2]
    · simp [hr]
  have hsplit := length_filter_split (l := A)
    (q := fun p => decide (p.2 = n) && (lookupA p.1 g).isSome)
    (r := fun p => decide (p.1 = root))
  unfold arcsInto
  rw [hfilter]
  rw [hmid] at hsplit
  omega

theorem kahnChild_foldl_spec (cs : List NName) :
    ∀ (g : Graph) (r : List NName),
      (∀ c ∈ cs, (lookupA c g).isSome) →
      (∀ c d ch, lookupA c g = some (d, ch) → (countL c cs : Int) ≤ d) →
      ∃ new : List NName,
        (cs.foldl TopologicalSorter.kahnChild (g, r)).2 = new ++ r ∧
        new.Nodup ∧ (∀ c ∈ new, c ∈ cs) ∧
        (∀ n, lookupA n (cs.foldl TopologicalSorter.kahnChild (g, r)).1
          = (lookupA n g).map (fun pr => (pr.1 - (countL n cs : Int), pr.2))) ∧
        (∀ c ∈ new, ∃ ch,
          lookupA c (cs.foldl TopologicalSorter.kahnChild (g, r)).1 = some (0, ch)) ∧
        ((cs.foldl TopologicalSorter.kahnChild (g, r)).1.map (fun e => (e.1, e.2.2))
          = g.map (fun e => (e.1, e.2.2))) := by
  induction cs with
  | nil =>
      intro g r _ _
      refine ⟨[], rfl, List.nodup_nil, by simp, ?_, by simp, rfl⟩
      intro n
      cases h : lookupA n g <;> simp [countL, h]
  | cons c cs' ih =>
      intro g r hsub hge
      obtain ⟨pr, hl⟩ := Option.isSome_iff_exists.1 (hsub c (List.mem_cons_self _ _))
      obtain ⟨d, ch⟩ := pr
      simp only [List.foldl_cons]
      have hstep : TopologicalSorter.kahnChild (g, r) c
          = (setA c (d - 1, ch) g, if d - 1 = 0 then c :: r else r) := by
        simp [TopologicalSorter.kahnChild, hl]
      rw [hstep]
      have hlook1 : ∀ n, lookupA n (setA c (d - 1, ch) g)
          = if n = c then some (d - 1, ch) else lookupA n g := by
        intro n
        by_cases hnc : n = c
        · subst hnc
          simp [lookupA_setA_self]
        · simp [hnc, lookupA_setA_ne hnc]
      have hcount : ∀ n, (countL n (c :: cs') : Int)
          = (if n = c then 1 else 0) + countL n cs' := by
        intro n
        by_cases hnc : n = c
        · subst hnc
          simp [countL]
        · have : ¬ (c = n) := fun hh => hnc hh.symm
          simp [countL, this, hnc]
      have hsub' : ∀ x ∈ cs', (lookupA x (setA c (d - 1, ch) g)).isSome := by
        intro x hx
        rw [hlook1 x]
        by_cases hxc : x = c
        · simp [hxc]
        · simp only [if_neg hxc]
          exact hsub x (List.mem_cons_of_mem _ hx)
      have hge' : ∀ x dx chx, lookupA x (setA c (d - 1, ch) g) = some (dx, chx) →
          (countL x cs' : Int) ≤ dx := by
        intro x dx chx hx
        rw [hlook1 x] at hx
        by_cases hxc : x = c
        · rw [if_pos hxc] at hx
          simp only [Option.some.injEq, Prod.mk.injEq] at hx
          obtain ⟨hx1, hx2⟩ := hx
          have h0 := hge c d ch hl
          have hc1 : (countL c (c :: cs') : Int) = 1 + (countL c cs' : Int) := by
            simp [countL]
          rw [hc1] at h0
          rw [hxc]
          omega
        · rw [if_neg hxc] at hx
          have h0 := hge x dx chx hx
          rw [hcount x] at h0
          rw [if_neg hxc] at h0
          omega
      obtain ⟨new, hnew, hnewN, hnewsub, hlook, hzero, hproj⟩ :=
        ih (setA c (d - 1, ch) g) (if d - 1 = 0 then c :: r else r) hsub' hge'
      have hlookAll : ∀ n, lookupA n (cs'.foldl TopologicalSorter.kahnChild
            (setA c (d - 1, ch) g, if d - 1 = 0 then c :: r else r)).1
          = (lookupA n g).map (fun pr => (pr.1 - (countL n (c :: cs') : Int), pr.2)) := by
        intro n
        rw [hlook n, hlook1 n, hcount n]
        by_cases hnc : n = c
        · rw [if_pos hnc, if_pos hnc, hnc, hl]
          simp only [Option.map_some', Option.some.injEq, Prod.mk.injEq]
          exact ⟨by omega, trivial⟩
        · rw [if_neg hnc, if_neg hnc]
          simp only [Int.zero_add]
      have hprojAll : (cs'.foldl TopologicalSorter.kahnChild
            (setA c (d - 1, ch) g, if d - 1 = 0 then c :: r else r)).1.map
              (fun e => (e.1, e.2.2))
          = g.map (fun e => (e.1, e.2.2)) := by
        rw [hproj, proj_setA hl]
      by_cases hz : d - 1 = 0
      · have hcc : countL c cs' = 0 := by
          have h0 := hge' c (d - 1) ch (by rw [hlook1]; simp)
          omega
        have hccn : c ∉ cs' := countL_eq_zero.1 hcc
        have hcn : c ∉ new := fun hcm => hccn (hnewsub c hcm)
        refine ⟨new ++ [c], ?_, ?_, ?_, ?_, ?_, hprojAll⟩
        · rw [if_pos hz] at hnew ⊢
          rw [hnew]
          simp
        · rw [List.nodup_append]
          exact ⟨hnewN, List.nodup_singleton _, fun x hx hxs => by
            simp only [List.mem_singleton] at hxs
            exact hcn (hxs ▸ hx)⟩
        · intro x hx
          rcases List.mem_append.1 hx with hx | hx
          · exact List.mem_cons_of_mem _ (hnewsub x hx)
          · simp only [List.mem_singleton] at hx
            exact hx ▸ List.mem_cons_self _ _
        · simp only [if_pos hz]
          simp only [if_pos hz] at hlookAll
          exact hlookAll
        · intro x hx
          simp only [if_pos hz]
          simp only [if_pos hz] at hzero hlookAll
          rcases List.mem_append.1 hx with hx | hx
          · exact hzero x hx
          · simp only [List.mem_singleton] at hx
            refine ⟨ch, ?_⟩
            rw [hx, hlookAll c, hl]
            simp only [Option.map_some', Option.some.injEq, Prod.mk.injEq]
            refine ⟨?_, trivial⟩
            have hc2 : (countL c (c :: cs') : Int) = 1 + (countL c cs' : Int) := by
              rw [hcount c]
              simp
            rw [hc2]
            omega
      · refine ⟨new, ?_, hnewN,
          fun x hx => List.mem_cons_of_mem _ (hnewsub x hx), ?_, ?_, hprojAll⟩
        · simp only [if_neg hz]
          simp only [if_neg hz] at hnew
          exact hnew
        · simp only [if_neg hz]
          simp only [if_neg hz] at hlookAll
          exact hlookAll
        · intro x hx
          simp only [if_neg hz]
          simp only [if_neg hz] at hzero
          exact hzero x hx

theorem kahnLoop_spec (fuel : Nat) :
    ∀ (A : List (NName × NName)) (nodes : List NName) (g : Graph)
      (roots acc : List NName),
      KInv A nodes g roots acc →
      roots.length + sumCh g ≤ fuel →
      ∃ acc2 g2, TopologicalSorter.kahnLoop fuel g roots acc = (acc2, g2) ∧
        KInv A nodes g2 [] acc2 := by
  induction fuel with
  | zero =>
      intro A nodes g roots acc hinv hm
      have hr0 : roots = [] := by
        cases roots with
        | nil => rfl
        | cons a t => simp at hm
      subst hr0
      exact ⟨acc, g, rfl, { hinv with rootsZ := by simp, rootsN := List.nodup_nil }⟩
  | succ fuel ih =>
      intro A nodes g roots acc hinv hm
      cases roots with
      | nil =>
          exact ⟨acc, g, rfl, { hinv with rootsZ := by simp, rootsN := List.nodup_nil }⟩
      | cons root rest =>
          obtain ⟨ch0, hroot⟩ := hinv.rootsZ root (List.mem_cons_self _ _)
          have hrootSome : (lookupA root g).isSome := by simp [hroot]
          have hrootNA := (hinv.keysC root).1 hrootSome
          have hch : ch0 = (A.filter (fun p => decide (p.1 = root))).map Prod.snd :=
            hinv.chE root 0 ch0 hroot
          have hd0 : (0 : Int) = (arcsInto A g root : Int) := hinv.dE root 0 ch0 hroot
          have hchildren : TopologicalSorter.childrenOf g root = ch0 := by
            simp [TopologicalSorter.childrenOf, hroot]
          have hrestN : rest.Nodup := (List.nodup_cons.1 hinv.rootsN).2
          have hrootrest : root ∉ rest := (List.nodup_cons.1 hinv.rootsN).1
          have hnoarc : ∀ p ∈ A, p.2 = root → ¬ ((lookupA p.1 g).isSome = true) := by
            intro p hp hp2 hsome
            have hmem : p ∈ A.filter
                (fun q => decide (q.2 = root) && (lookupA q.1 g).isSome) :=
              List.mem_filter.2 ⟨hp, by simp [hp2, hsome]⟩
            have hpos : 0 < (A.filter
                (fun q => decide (q.2 = root) && (lookupA q.1 g).isSome)).length :=
              List.length_pos.2 (List.ne_nil_of_mem hmem)
            unfold arcsInto at hd0
            omega
          have hsrc_acc : ∀ p ∈ A, p.2 = root → p.1 ∈ acc := by
            intro p hp hp2
            by_contra hnacc
            exact hnoarc p hp hp2 ((hinv.keysC p.1).2 ⟨(hinv.arcsN p hp).1, hnacc⟩)
          have hsub : ∀ c ∈ ch0, (lookupA c g).isSome := by
            intro c hc
            rw [hch] at hc
            obtain ⟨p, hp, hpe⟩ := List.mem_map.1 hc
            have hpf := List.mem_filter.1 hp
            have hp1 : p.1 = root := by simpa using hpf.2
            have hc_nodes : c ∈ nodes := by
              rw [← hpe]
              exact (hinv.arcsN p hpf.1).2
            have hc_nacc : c ∉ acc := by
              intro hacc
              have hlb := hinv.arcsB p hpf.1 (by rw [hpe]; exact hacc)
              have hsrcm : p.1 ∈ acc := mem_left_of_listBefore hlb
              rw [hp1] at hsrcm
              exact hrootNA.2 hsrcm
            exact (hinv.keysC c).2 ⟨hc_nodes, hc_nacc⟩
          have hge : ∀ c d ch, lookupA c g = some (d, ch) → (countL c ch0 : Int) ≤ d := by
            intro c d ch hcd
            rw [hch, countL_children]
            have hdE := hinv.dE c d ch hcd
            have hlen : (A.filter (fun p => decide (p.1 = root) && decide (p.2 = c))).length
                ≤ arcsInto A g c := by
              unfold arcsInto
              apply length_filter_le_of_imp
              intro p hp hcond
              simp only [Bool.and_eq_true, decide_eq_true_eq] at hcond
              have hps : (lookupA p.1 g).isSome = true := by
                rw [hcond.1]
                exact hrootSome
              simp [hcond.2, hps]
            rw [hdE]
            exact_mod_cast hlen
          obtain ⟨new, hnew, hnewN, hnewsub, hlook, hzero, hproj⟩ :=
            kahnChild_foldl_spec ch0 g rest hsub hge
          obtain ⟨g1, hg1⟩ : ∃ g1, (ch0.foldl TopologicalSorter.kahnChild (g, rest)).1 = g1 :=
            ⟨_, rfl⟩
          rw [hg1] at hlook hzero hproj
          have hkeysg1 : g1.map Prod.fst = g.map Prod.fst := by
            have hm1 := congrArg (List.map Prod.fst) hproj
            simpa [List.map_map, Function.comp] using hm1
          have hkeysN1 : (g1.map Prod.fst).Nodup := by
            rw [hkeysg1]
            exact hinv.keysN
          have hg2keys : (eraseKey root g1).map Prod.fst
              = eraseFirst root (g1.map Prod.fst) := map_fst_eraseKey
          have hg2root : lookupA (β := Int × List NName) root (eraseKey root g1) = none := by
            apply lookupA_eq_none_of_not_mem
            rw [hg2keys]
            intro hmem
            exact ((mem_eraseFirst_nodup hkeysN1).1 hmem).2 rfl
          have hg2ne : ∀ n, n ≠ root →
              lookupA n (eraseKey root g1) = lookupA n g1 :=
            fun n hn => lookupA_eraseKey_ne hn
          have hkeyrel : ∀ k, (lookupA k (eraseKey root g1)).isSome ↔
              ((lookupA k g).isSome ∧ k ≠ root) := by
            intro k
            by_cases hk : k = root
            · subst hk
              simp [hg2root]
            · rw [hg2ne k hk, hlook k]
              cases h : lookupA k g <;> simp [hk]
          have keysN2 : ((eraseKey root g1).map Prod.fst).Nodup := by
            rw [hg2keys]
            exact nodup_eraseFirst hkeysN1
          have keysC2 : ∀ n, (lookupA n (eraseKey root g1)).isSome ↔
              (n ∈ nodes ∧ n ∉ acc ++ [root]) := by
            intro n
            rw [hkeyrel n, hinv.keysC n]
            constructor
            · rintro ⟨⟨h1, h2⟩, h3⟩
              refine ⟨h1, ?_⟩
              simp only [List.mem_append, List.mem_singleton]
              rintro (h | h)
              · exact h2 h
              · exact h3 h
            · rintro ⟨h1, h2⟩
              simp only [List.mem_append, List.mem_singleton, not_or] at h2
              exact ⟨⟨h1, h2.1⟩, h2.2⟩
          have chE2 : ∀ n d ch, lookupA n (eraseKey root g1) = some (d, ch) →
              ch = (A.filter (fun p => decide (p.1 = n))).map Prod.snd := by
            intro n d ch h
            have hn : n ≠ root := by
              rintro rfl
              rw [hg2root] at h
              exact Option.noConfusion h
            rw [hg2ne n hn, hlook n] at h
            cases hlg : lookupA n g with
            | none =>
                rw [hlg] at h
                exact Option.noConfusion h
            | some pr =>
                obtain ⟨dd, cc⟩ := pr
                rw [hlg] at h
                simp only [Option.map_some', Option.some.injEq, Prod.mk.injEq] at h
                rw [← h.2]
                exact hinv.chE n dd cc hlg
          have dE2 : ∀ n d ch, lookupA n (eraseKey root g1) = some (d, ch) →
              d = (arcsInto A (eraseKey root g1) n : Int) := by
            intro n d ch h
            have hn : n ≠ root := by
              rintro rfl
              rw [hg2root] at h
              exact Option.noConfusion h
            rw [hg2ne n hn, hlook n] at h
            cases hlg : lookupA n g with
            | none =>
                rw [hlg] at h
                exact Option.noConfusion h
            | some pr =>
                obtain ⟨dd, cc⟩ := pr
                rw [hlg] at h
                simp only [Option.map_some', Option.some.injEq, Prod.mk.injEq] at h
                have hdg : dd = (arcsInto A g n : Int) := hinv.dE n dd cc hlg
                have herase := arcsInto_erase A g (eraseKey root g1) root n hkeyrel hrootSome
                have hcnt : (countL n ch0 : Int)
                    = ((A.filter (fun p => decide (p.1 = root) && decide (p.2 = n))).length : Int) := by
                  rw [hch, countL_children]
                omega
          have rootsZ2 : ∀ x ∈ new ++ rest, ∃ ch,
              lookupA x (eraseKey root g1) = some (0, ch) := by
            intro x hx
            rcases List.mem_append.1 hx with hx | hx
            · obtain ⟨chx, hchx⟩ := hzero x hx
              have hxroot : x ≠ root := by
                rintro rfl
                have h1 := hlook x
                rw [hroot] at h1
                rw [h1] at hchx
                simp only [Option.map_some', Option.some.injEq, Prod.mk.injEq] at hchx
                have hc0 : countL x ch0 = 0 := by omega
                exact (countL_eq_zero.1 hc0) (hnewsub x hx)
              refine ⟨chx, ?_⟩
              rw [hg2ne x hxroot]
              exact hchx
            · obtain ⟨chx, hchx⟩ := hinv.rootsZ x (List.mem_cons_of_mem _ hx)
              have hcnt0 : (countL x ch0 : Int) ≤ 0 := hge x 0 chx hchx
              have hcnt0' : countL x ch0 = 0 := by omega
              have hxroot : x ≠ root := fun hh => hrootrest (hh ▸ hx)
              refine ⟨chx, ?_⟩
              rw [hg2ne x hxroot, hlook x, hchx]
              simp [hcnt0']
          have rootsN2 : (new ++ rest).Nodup := by
            rw [List.nodup_append]
            refine ⟨hnewN, hrestN, ?_⟩
            intro x hxn hxr
            obtain ⟨chx, hchx⟩ := hinv.rootsZ x (List.mem_cons_of_mem _ hxr)
            have h0 : (countL x ch0 : Int) ≤ 0 := hge x 0 chx hchx
            have h0' : countL x ch0 = 0 := by omega
            exact (countL_eq_zero.1 h0') (hnewsub x hxn)
          have accN2 : (acc ++ [root]).Nodup := by
            rw [List.nodup_append]
            refine ⟨hinv.accN, List.nodup_singleton _, ?_⟩
            intro x hx hxs
            simp only [List.mem_singleton] at hxs
            exact hrootNA.2 (hxs ▸ hx)
          have arcsB2 : ∀ p ∈ A, p.2 ∈ acc ++ [root] →
              listBefore p.1 p.2 (acc ++ [root]) := by
            intro p hp hmem
            rcases List.mem_append.1 hmem with hmem | hmem
            · exact listBefore_append (hinv.arcsB p hp hmem)
            · simp only [List.mem_singleton] at hmem
              have hsrc := hsrc_acc p hp hmem
              rw [hmem]
              exact listBefore_concat hsrc
          have hsum1 : sumCh g1 = sumCh g := sumCh_proj_eq hproj
          have hrootg1 : lookupA root g1 = some (0 - (countL root ch0 : Int), ch0) := by
            rw [hlook root, hroot]
            simp
          have hsum2 := sumCh_eraseKey hrootg1
          have hlennew : new.length ≤ ch0.length := nodup_subset_length hnewN hnewsub
          have hm2 : (new ++ rest).length + sumCh (eraseKey root g1) ≤ fuel := by
            simp only [List.length_cons] at hm
            simp only [List.length_append]
            omega
          have hstep : TopologicalSorter.kahnLoop (fuel + 1) g (root :: rest) acc
              = TopologicalSorter.kahnLoop fuel (eraseKey root g1) (new ++ rest)
                  (acc ++ [root]) := by
            conv_lhs => rw [TopologicalSorter.kahnLoop]
            rw [hchildren]
            rw [hg1, hnew]
          rw [hstep]
          exact ih A nodes (eraseKey root g1) (new ++ rest) (acc ++ [root])
            ⟨keysN2, keysC2, chE2, dE2, hinv.arcsN, rootsZ2, rootsN2, accN2, arcsB2⟩ hm2

theorem length_eraseFirst_le {α : Type} [DecidableEq α] (x : α) (l : List α) :
    (eraseFirst x l).length ≤ l.length := by
  induction l with
  | nil => simp [eraseFirst]
  | cons a t ih =>
      by_cases hax : a = x
      · simp [eraseFirst, if_pos hax]
      · simp only [eraseFirst, if_neg hax, List.length_cons]
        omega

theorem sumCh_adjust_inc {k : NName} {g : Graph} :
    sumCh (adjustA k (fun pr => (pr.1 + 1, pr.2)) g) = sumCh g := by
  induction g with
  | nil => simp [adjustA]
  | cons p t ih =>
      obtain ⟨a, c⟩ := p
      by_cases hak : a = k
      · simp [adjustA, if_pos hak, sumCh]
      · simp only [adjustA, if_neg hak, sumCh, List.map_cons, List.sum_cons]
        simp only [sumCh] at ih
        omega

theorem sumCh_adjust_child {k x : NName} {g : Graph} :
    sumCh (adjustA k (fun pr => (pr.1, pr.2 ++ [x])) g) ≤ sumCh g + 1 := by
  induction g with
  | nil => simp [adjustA]
  | cons p t ih =>
      obtain ⟨a, c⟩ := p
      by_cases hak : a = k
      · simp only [adjustA, if_pos hak, sumCh, List.map_cons, List.sum_cons,
          List.length_append, List.length_singleton]
        omega
      · simp only [adjustA, if_neg hak, sumCh, List.map_cons, List.sum_cons]
        simp only [sumCh] at ih
        omega

theorem addNode_foldl (ns : List NName) :
    ∀ (g : Graph) (r : List NName),
      g.map Prod.fst = r → r.Nodup →
      (∀ n ∈ r, lookupA n g = some (0, [])) →
      ((ns.foldl TopologicalSorter.addNode (g, r)).1.map Prod.fst
          = (ns.foldl TopologicalSorter.addNode (g, r)).2) ∧
      (ns.foldl TopologicalSorter.addNode (g, r)).2.Nodup ∧
      (∀ n, n ∈ (ns.foldl TopologicalSorter.addNode (g, r)).2 ↔ (n ∈ r ∨ n ∈ ns)) ∧
      (∀ n ∈ (ns.foldl TopologicalSorter.addNode (g, r)).2,
        lookupA n (ns.foldl TopologicalSorter.addNode (g, r)).1 = some (0, [])) ∧
      sumCh (ns.foldl TopologicalSorter.addNode (g, r)).1 = sumCh g := by
  induction ns with
  | nil =>
      intro g r h1 h2 h3
      exact ⟨h1, h2, by simp, h3, rfl⟩
  | cons n ns' ih =>
      intro g r h1 h2 h3
      simp only [List.foldl_cons]
      by_cases hs : (lookupA n g).isSome
      · have hstep : TopologicalSorter.addNode (g, r) n = (g, r) := by
          simp [TopologicalSorter.addNode, hs]
        rw [hstep]
        obtain ⟨i1, i2, i3, i4, i5⟩ := ih g r h1 h2 h3
        have hnr : n ∈ r := by
          rw [← h1]
          exact lookupA_isSome_iff.1 hs
        refine ⟨i1, i2, ?_, i4, i5⟩
        intro m
        rw [i3 m]
        constructor
        · rintro (h | h)
          · exact Or.inl h
          · exact Or.inr (List.mem_cons_of_mem _ h)
        · rintro (h | h)
          · exact Or.inl h
          · rcases List.mem_cons.1 h with rfl | h
            · exact Or.inl hnr
            · exact Or.inr h
      · have hlnone : lookupA n g = none := by
          cases h : lookupA n g with
          | none => rfl
          | some b => exact absurd (by simp [h]) hs
        have hstep : TopologicalSorter.addNode (g, r) n
            = (g ++ [(n, ((0 : Int), ([] : List NName)))], r ++ [n]) := by
          simp [TopologicalSorter.addNode, hs]
        rw [hstep]
        have hnr : n ∉ r := by
          rw [← h1]
          intro hmem
          exact hs (lookupA_isSome_iff.2 hmem)
        have h1' : (g ++ [(n, ((0 : Int), ([] : List NName)))]).map Prod.fst = r ++ [n] := by
          rw [List.map_append, h1]
          rfl
        have h2' : (r ++ [n]).Nodup := by
          rw [List.nodup_append]
          refine ⟨h2, List.nodup_singleton _, ?_⟩
          intro x hx hxs
          simp only [List.mem_singleton] at hxs
          exact hnr (hxs ▸ hx)
        have h3' : ∀ m ∈ r ++ [n],
            lookupA m (g ++ [(n, ((0 : Int), ([] : List NName)))]) = some (0, []) := by
          intro m hm
          rcases List.mem_append.1 hm with hm | hm
          · exact lookupA_append_some (h3 m hm)
          · simp only [List.mem_singleton] at hm
            subst hm
            rw [lookupA_append_none hlnone]
            simp [lookupA]
        obtain ⟨i1, i2, i3, i4, i5⟩ := ih _ _ h1' h2' h3'
        refine ⟨i1, i2, ?_, i4, ?_⟩
        · intro m
          rw [i3 m]
          constructor
          · rintro (h | h)
            · rcases List.mem_append.1 h with h | h
              · exact Or.inl h
              · simp only [List.mem_singleton] at h
                exact Or.inr (h ▸ List.mem_cons_self _ _)
            · exact Or.inr (List.mem_cons_of_mem _ h)
          · rintro (h | h)
            · exact Or.inl (List.mem_append.2 (Or.inl h))
            · rcases List.mem_cons.1 h with rfl | h
              · exact Or.inl (List.mem_append.2 (Or.inr (by simp)))
              · exact Or.inr h
        · rw [i5]
          simp [sumCh]

theorem arcStep_foldl_binv (ns nodes : List NName) (ps : List (NName × NName)) :
    ∀ (A0 : List (NName × NName)) (st : TopologicalSorter.BuildState),
      BInv ns nodes A0 st →
      BInv ns nodes (A0 ++ ps.filter (fun p => decide (p.1 ∈ ns ∧ p.2 ∈ ns)))
        (ps.foldl (TopologicalSorter.arcStep ns) st) := by
  induction ps with
  | nil =>
      intro A0 st hinv
      simpa using hinv
  | cons q ps' ih =>
      intro A0 st hinv
      simp only [List.foldl_cons]
      by_cases hq : q.1 ∈ ns ∧ q.2 ∈ ns
      · have hfq : (q :: ps').filter (fun p => decide (p.1 ∈ ns ∧ p.2 ∈ ns))
            = q :: ps'.filter (fun p => decide (p.1 ∈ ns ∧ p.2 ∈ ns)) := by
          simp [List.filter_cons, hq]
        have hassoc : A0 ++ (q :: ps'.filter (fun p => decide (p.1 ∈ ns ∧ p.2 ∈ ns)))
            = (A0 ++ [q]) ++ ps'.filter (fun p => decide (p.1 ∈ ns ∧ p.2 ∈ ns)) := by
          simp
        rw [hfq, hassoc]
        apply ih (A0 ++ [q])
        -- one-step preservation: BInv ns nodes (A0 ++ [q]) (arcStep ns st q)
        have hg1look : ∀ m, lookupA m
            (adjustA q.1 (fun pr => (pr.1, pr.2 ++ [q.2])) st.graph)
            = if m = q.1 then (lookupA m st.graph).map (fun pr => (pr.1, pr.2 ++ [q.2]))
              else lookupA m st.graph := by
          intro m
          by_cases hm : m = q.1
          · subst hm
            simp [lookupA_adjustA_self]
          · simp [if_neg hm, lookupA_adjustA_ne hm]
        have hg2look : ∀ m, lookupA m (TopologicalSorter.arcStep ns st q).graph
            = if m = q.2 then
                (lookupA m (adjustA q.1 (fun pr => (pr.1, pr.2 ++ [q.2])) st.graph)).map
                  (fun pr => (pr.1 + 1, pr.2))
              else lookupA m (adjustA q.1 (fun pr => (pr.1, pr.2 ++ [q.2])) st.graph) := by
          intro m
          simp only [TopologicalSorter.arcStep, if_pos hq]
          by_cases hm : m = q.2
          · subst hm
            simp [lookupA_adjustA_self]
          · simp [if_neg hm, lookupA_adjustA_ne hm]
        have hgraph_eq : (TopologicalSorter.arcStep ns st q).graph
            = adjustA q.2 (fun pr => (pr.1 + 1, pr.2))
                (adjustA q.1 (fun pr => (pr.1, pr.2 ++ [q.2])) st.graph) := by
          simp [TopologicalSorter.arcStep, hq]
        have hroots_eq : (TopologicalSorter.arcStep ns st q).roots
            = if q.2 ∈ st.roots then eraseFirst q.2 st.roots else st.roots := by
          simp [TopologicalSorter.arcStep, hq]
        refine ⟨?_, hinv.nodesN, hinv.nodes_mem, ?_, ?_, ?_, ?_, ?_⟩
        · rw [hgraph_eq, map_fst_adjustA, map_fst_adjustA]
          exact hinv.keys_eq
        · -- chE
          intro m d ch h
          rw [hg2look m] at h
          by_cases hm2 : m = q.2
          · rw [if_pos hm2] at h
            cases hg1m : lookupA m
                (adjustA q.1 (fun pr => (pr.1, pr.2 ++ [q.2])) st.graph) with
            | none =>
                rw [hg1m] at h
                exact Option.noConfusion h
            | some pr =>
                obtain ⟨dd, cc⟩ := pr
                rw [hg1m] at h
                simp only [Option.map_some', Option.some.injEq, Prod.mk.injEq] at h
                rw [hg1look m] at hg1m
                by_cases hm1 : m = q.1
                · rw [if_pos hm1] at hg1m
                  cases hst : lookupA m st.graph with
                  | none =>
                      rw [hst] at hg1m
                      exact Option.noConfusion hg1m
                  | some pr0 =>
                      obtain ⟨d0, c0⟩ := pr0
                      rw [hst] at hg1m
                      simp only [Option.map_some', Option.some.injEq,
                        Prod.mk.injEq] at hg1m
                      have hold := hinv.chE m d0 c0 hst
                      rw [← h.2, ← hg1m.2, hold,
                        List.filter_append, List.map_append]
                      have hq1m : q.1 = m := hm1.symm
                      simp [List.filter_cons, hq1m]
                · rw [if_neg hm1] at hg1m
                  have hold := hinv.chE m dd cc hg1m
                  rw [← h.2, hold, List.filter_append, List.map_append]
                  have hq1m : ¬ (q.1 = m) := fun hh => hm1 hh.symm
                  simp [List.filter_cons, hq1m]
          · rw [if_neg hm2] at h
            rw [hg1look m] at h
            by_cases hm1 : m = q.1
            · rw [if_pos hm1] at h
              cases hst : lookupA m st.graph with
              | none =>
                  rw [hst] at h
                  exact Option.noConfusion h
              | some pr0 =>
                  obtain ⟨d0, c0⟩ := pr0
                  rw [hst] at h
                  simp only [Option.map_some', Option.some.injEq, Prod.mk.injEq] at h
                  have hold := hinv.chE m d0 c0 hst
                  rw [← h.2, hold, List.filter_append, List.map_append]
                  have hq1m : q.1 = m := hm1.symm
                  simp [List.filter_cons, hq1m]
            · rw [if_neg hm1] at h
              have hold := hinv.chE m d ch h
              rw [hold, List.filter_append, List.map_append]
              have hq1m : ¬ (q.1 = m) := fun hh => hm1 hh.symm
              simp [List.filter_cons, hq1m]
        · -- dE
          intro m d ch h
          rw [hg2look m] at h
          by_cases hm2 : m = q.2
          · rw [if_pos hm2] at h
            cases hg1m : lookupA m
                (adjustA q.1 (fun pr => (pr.1, pr.2 ++ [q.2])) st.graph) with
            | none =>
                rw [hg1m] at h
                exact Option.noConfusion h
            | some pr =>
                obtain ⟨dd, cc⟩ := pr
                rw [hg1m] at h
                simp only [Option.map_some', Option.some.injEq, Prod.mk.injEq] at h
                rw [hg1look m] at hg1m
                have hq2m : q.2 = m := hm2.symm
                have hlen : ((A0 ++ [q]).filter (fun p => decide (p.2 = m))).length
                    = (A0.filter (fun p => decide (p.2 = m))).length + 1 := by
                  rw [List.filter_append]
                  simp [List.filter_cons, hq2m]
                rw [hlen]
                by_cases hm1 : m = q.1
                · rw [if_pos hm1] at hg1m
                  cases hst : lookupA m st.graph with
                  | none =>
                      rw [hst] at hg1m
                      exact Option.noConfusion hg1m
                  | some pr0 =>
                      obtain ⟨d0, c0⟩ := pr0
                      rw [hst] at hg1m
                      simp only [Option.map_some', Option.some.injEq,
                        Prod.mk.injEq] at hg1m
                      have hold := hinv.dE m d0 c0 hst
                      omega
                · rw [if_neg hm1] at hg1m
                  have hold := hinv.dE m dd cc hg1m
                  omega
          · rw [if_neg hm2] at h
            have hq2m : ¬ (q.2 = m) := fun hh => hm2 hh.symm
            have hlen : ((A0 ++ [q]).filter (fun p => decide (p.2 = m))).length
                = (A0.filter (fun p => decide (p.2 = m))).length := by
              rw [List.filter_append]
              simp [List.filter_cons, hq2m]
            rw [hlen]
            rw [hg1look m] at h
            by_cases hm1 : m = q.1
            · rw [if_pos hm1] at h
              cases hst : lookupA m st.graph with
              | none =>
                  rw [hst] at h
                  exact Option.noConfusion h
              | some pr0 =>
                  obtain ⟨d0, c0⟩ := pr0
                  rw [hst] at h
                  simp only [Option.map_some', Option.some.injEq, Prod.mk.injEq] at h
                  have hold := hinv.dE m d0 c0 hst
                  omega
            · rw [if_neg hm1] at h
              exact hinv.dE m d ch h
        · -- rootsZ
          intro x hx
          rw [hroots_eq] at hx
          have hxroots : x ∈ st.roots := by
            by_cases hc : q.2 ∈ st.roots
            · rw [if_pos hc] at hx
              exact mem_of_mem_eraseFirst hx
            · rw [if_neg hc] at hx
              exact hx
          have hxq2 : x ≠ q.2 := by
            by_cases hc : q.2 ∈ st.roots
            · rw [if_pos hc] at hx
              exact ((mem_eraseFirst_nodup hinv.rootsN).1 hx).2
            · rw [if_neg hc] at hx
              rintro rfl
              exact hc hx
          obtain ⟨chx, hchx⟩ := hinv.rootsZ x hxroots
          rw [hg2look x, if_neg hxq2, hg1look x]
          by_cases hm1 : x = q.1
          · rw [if_pos hm1, hchx]
            exact ⟨chx ++ [q.2], rfl⟩
          · rw [if_neg hm1]
            exact ⟨chx, hchx⟩
        · -- rootsN
          rw [hroots_eq]
          by_cases hc : q.2 ∈ st.roots
          · rw [if_pos hc]
            exact nodup_eraseFirst hinv.rootsN
          · rw [if_neg hc]
            exact hinv.rootsN
        · -- sum_le
          rw [hgraph_eq, sumCh_adjust_inc]
          have h1 := sumCh_adjust_child (k := q.1) (x := q.2) (g := st.graph)
          have h2 := hinv.sum_le
          simp only [List.length_append, List.length_singleton]
          omega
      · have hfq : (q :: ps').filter (fun p => decide (p.1 ∈ ns ∧ p.2 ∈ ns))
            = ps'.filter (fun p => decide (p.1 ∈ ns ∧ p.2 ∈ ns)) := by
          simp [List.filter_cons, hq]
        have hstep : TopologicalSorter.arcStep ns st q = st := by
          simp [TopologicalSorter.arcStep, hq]
        rw [hfq, hstep]
        exact ih A0 st hinv

theorem sortedCore_spec {V : Type} (s : TopologicalSorter V) :
    ∃ nodes acc2 g2,
      TopologicalSorter.sortedCore s = (acc2, g2) ∧
      KInv (effArcs s) nodes g2 [] acc2 ∧
      (∀ n, n ∈ nodes ↔ n ∈ TopologicalSorter.fullNames s) := by
  obtain ⟨gpair, hgpair⟩ :
      ∃ x, (TopologicalSorter.fullNames s).foldl TopologicalSorter.addNode
        (([] : Graph), ([] : List NName)) = x := ⟨_, rfl⟩
  obtain ⟨i1, i2, i3, i4, i5⟩ := addNode_foldl (TopologicalSorter.fullNames s)
    ([] : Graph) ([] : List NName) (by simp) List.nodup_nil (by simp)
  rw [hgpair] at i1 i2 i3 i4 i5
  have hbuild : TopologicalSorter.buildGraph s
      = (TopologicalSorter.fullOrder s).foldl
          (TopologicalSorter.arcStep (TopologicalSorter.fullNames s))
          ⟨gpair.1, gpair.2, [], []⟩ := by
    unfold TopologicalSorter.buildGraph
    rw [hgpair]
  have hbinv0 : BInv (TopologicalSorter.fullNames s) gpair.2 []
      ⟨gpair.1, gpair.2, [], []⟩ := by
    refine ⟨i1, i2, ?_, ?_, ?_, ?_, i2, ?_⟩
    · intro n
      rw [i3 n]
      simp
    · intro m d ch h
      have hm : m ∈ gpair.2 := by
        rw [← i1]
        exact lookupA_isSome_iff.1 (by simp [h])
      have h0 := i4 m hm
      rw [h] at h0
      simp only [Option.some.injEq, Prod.mk.injEq] at h0
      rw [h0.2]
      simp
    · intro m d ch h
      have hm : m ∈ gpair.2 := by
        rw [← i1]
        exact lookupA_isSome_iff.1 (by simp [h])
      have h0 := i4 m hm
      rw [h] at h0
      simp only [Option.some.injEq, Prod.mk.injEq] at h0
      rw [h0.1]
      simp
    · intro r hr
      exact ⟨[], i4 r hr⟩
    · rw [i5]
      simp [sumCh]
  have hbinv1 := arcStep_foldl_binv (TopologicalSorter.fullNames s) gpair.2
    (TopologicalSorter.fullOrder s) [] ⟨gpair.1, gpair.2, [], []⟩ hbinv0
  rw [List.nil_append] at hbinv1
  rw [← hbuild] at hbinv1
  have hbinv : BInv (TopologicalSorter.fullNames s) gpair.2 (effArcs s)
      (TopologicalSorter.buildGraph s) := hbinv1
  have hiso : ∀ p ∈ effArcs s,
      (lookupA p.1 (TopologicalSorter.buildGraph s).graph).isSome = true := by
    intro p hp
    have hm := List.mem_filter.1 hp
    have hns : p.1 ∈ TopologicalSorter.fullNames s := by
      have := hm.2
      simp only [decide_eq_true_eq] at this
      exact this.1
    have hn : p.1 ∈ gpair.2 := (hbinv.nodes_mem p.1).2 hns
    apply lookupA_isSome_iff.2
    rw [hbinv.keys_eq]
    exact hn
  have hkinv : KInv (effArcs s) gpair.2 (TopologicalSorter.buildGraph s).graph
      (TopologicalSorter.buildGraph s).roots [] := by
    refine ⟨?_, ?_, hbinv.chE, ?_, ?_, hbinv.rootsZ, hbinv.rootsN,
      List.nodup_nil, ?_⟩
    · rw [hbinv.keys_eq]
      exact hbinv.nodesN
    · intro n
      rw [lookupA_isSome_iff, hbinv.keys_eq]
      simp
    · intro n d ch h
      have h0 := hbinv.dE n d ch h
      have heq : arcsInto (effArcs s) (TopologicalSorter.buildGraph s).graph n
          = ((effArcs s).filter (fun p => decide (p.2 = n))).length := by
        unfold arcsInto
        congr 1
        apply List.filter_congr
        intro p hp
        rw [hiso p hp]
        simp
      rw [heq]
      exact h0
    · intro p hp
      have hm := List.mem_filter.1 hp
      have hns : p.1 ∈ TopologicalSorter.fullNames s ∧
          p.2 ∈ TopologicalSorter.fullNames s := by
        have := hm.2
        simpa using this
      exact ⟨(hbinv.nodes_mem p.1).2 hns.1, (hbinv.nodes_mem p.2).2 hns.2⟩
    · intro p hp hmem
      simp at hmem
  have hsum : sumCh (TopologicalSorter.buildGraph s).graph ≤ (effArcs s).length :=
    hbinv.sum_le
  have hle1 : (effArcs s).length ≤ (TopologicalSorter.fullOrder s).length :=
    List.length_filter_le _ _
  have hrootslen : (TopologicalSorter.buildGraph s).roots.length ≤ gpair.2.length := by
    apply nodup_subset_length hbinv.rootsN
    intro x hx
    obtain ⟨chx, hchx⟩ := hbinv.rootsZ x hx
    have hk : x ∈ (TopologicalSorter.buildGraph s).graph.map Prod.fst :=
      lookupA_isSome_iff.1 (by simp [hchx])
    rw [hbinv.keys_eq] at hk
    exact hk
  have hnodeslen : gpair.2.length ≤ (TopologicalSorter.fullNames s).length := by
    apply nodup_subset_length hbinv.nodesN
    intro x hx
    exact (hbinv.nodes_mem x).1 hx
  have hfuel : (TopologicalSorter.buildGraph s).roots.length
      + sumCh (TopologicalSorter.buildGraph s).graph
      ≤ (TopologicalSorter.fullNames s).length
        + (TopologicalSorter.fullOrder s).length := by
    omega
  obtain ⟨acc2, g2, hloop, hterm⟩ := kahnLoop_spec
    ((TopologicalSorter.fullNames s).length + (TopologicalSorter.fullOrder s).length)
    (effArcs s) gpair.2 (TopologicalSorter.buildGraph s).graph
    (TopologicalSorter.buildGraph s).roots [] hkinv hfuel
  refine ⟨gpair.2, acc2, g2, ?_, hterm, fun n => hbinv.nodes_mem n⟩
  unfold TopologicalSorter.sortedCore
  exact hloop

theorem eq_nil_of_isEmpty {α : Type} {l : List α} (h : l.isEmpty = true) : l = [] := by
  cases l with
  | nil => rfl
  | cons a t => simp at h

theorem sortedResult_ok_elim {V : Type} {s : TopologicalSorter V}
    {res : List (NName × V)} (h : TopologicalSorter.sortedResult s = .ok res) :
    (TopologicalSorter.sortedCore s).2 = [] ∧
    res = (TopologicalSorter.sortedCore s).1.filterMap (fun n =>
      if n ∈ s.names then (lookupA n s.name2val).map (fun v => (n, v)) else none) := by
  unfold TopologicalSorter.sortedResult at h
  dsimp only at h
  split at h
  · split at h
    · split at h
      · rename_i h3
        refine ⟨eq_nil_of_isEmpty h3, ?_⟩
        injection h with h4
        exact h4.symm
      · exact Except.noConfusion h
    · exact Except.noConfusion h
  · exact Except.noConfusion h

theorem sortedResult_cyclic_elim {V : Type} {s : TopologicalSorter V}
    {deps : List (NName × List NName)}
    (h : TopologicalSorter.sortedResult s = .error (.cyclic deps)) :
    (TopologicalSorter.sortedCore s).2 ≠ [] ∧
    deps = (TopologicalSorter.sortedCore s).2.map (fun p => (p.1, p.2.2)) := by
  unfold TopologicalSorter.sortedResult at h
  dsimp only at h
  split at h
  · split at h
    · split at h
      · exact Except.noConfusion h
      · rename_i h3
        refine ⟨?_, ?_⟩
        · intro hnil
          exact h3 (by rw [hnil]; rfl)
        · injection h with h4
          injection h4 with h5
          exact h5.symm
    · simp at h
  · simp at h

/-- C3: topological validity.  Whenever `sorted()` returns a result,
every recorded constraint pair — `(Y, X)` for `after=Y` on `X`, `(X, Y)`
for `before=Y` on `X` — between two registered names is respected: the
predecessor's `(name, value)` entry appears strictly before the
successor's in the returned list. -/
theorem tsorter_c3_topological {V : Type} (s : TopologicalSorter V)
    (res : List (NName × V)) (u v : NName) (vu vv : V)
    (hok : TopologicalSorter.sortedResult s = .ok res)
    (hp : (u, v) ∈ s.order) (hu : u ∈ s.names) (hv : v ∈ s.names)
    (hvu : lookupA u s.name2val = some vu) (hvv : lookupA v s.name2val = some vv) :
    listBefore (u, vu) (v, vv) res := by
  obtain ⟨hg2nil, hres⟩ := sortedResult_ok_elim hok
  obtain ⟨nodes, acc2, g2, hcore, hkinv, hnodes⟩ := sortedCore_spec s
  rw [hcore] at hg2nil hres
  simp only at hg2nil hres
  subst hg2nil
  have hpA : (u, v) ∈ effArcs s := by
    apply List.mem_filter.2
    refine ⟨List.mem_cons_of_mem _ hp, ?_⟩
    simp only [decide_eq_true_eq]
    exact ⟨by simp [TopologicalSorter.fullNames, hu],
      by simp [TopologicalSorter.fullNames, hv]⟩
  have hvacc : v ∈ acc2 := by
    have hvn : v ∈ nodes := (hkinv.arcsN (u, v) hpA).2
    by_contra hnacc
    have := (hkinv.keysC v).2 ⟨hvn, hnacc⟩
    simp [lookupA] at this
  have hlb : listBefore u v acc2 := hkinv.arcsB (u, v) hpA hvacc
  rw [hres]
  exact listBefore_filterMap hlb (by simp [hu, hvu]) (by simp [hv, hvv])

/-- Witness for C3: the spec's end-to-end example, checking that `c`
(the `after` target of `b`) precedes `b` in the output. -/
theorem tsorter_c3_witness :
    TopologicalSorter.sortedResult exSpec
        = .ok [(.user "c", 3), (.user "b", 2), (.user "a", 1)] ∧
      listBefore ((.user "c" : NName), 3) ((.user "b" : NName), 2)
        [(.user "c", 3), (.user "b", 2), (.user "a", 1)] :=
  ⟨rfl, tsorter_c3_topological exSpec
    [(.user "c", 3), (.user "b", 2), (.user "a", 1)]
    (.user "c") (.user "b") 3 2 rfl (by decide) (by decide) (by decide) rfl rfl⟩

/-- C4: on a cycle, `sorted()` raises `CyclicDependencyError` whose
payload is the nonempty residual subgraph: each unresolved node mapped
to its recorded successors, all of which are themselves unresolved
nodes of the payload. -/
theorem tsorter_c4_cycle {V : Type} (s : TopologicalSorter V)
    (deps : List (NName × List NName))
    (h : TopologicalSorter.sortedResult s = .error (.cyclic deps)) :
    deps ≠ [] ∧
    (∀ p ∈ deps, p.2 = ((effArcs s).filter
      (fun q => decide (q.1 = p.1))).map Prod.snd) ∧
    (∀ p ∈ deps, ∀ c ∈ p.2, ∃ q ∈ deps, q.1 = c) := by
  obtain ⟨hg2ne, hdeps⟩ := sortedResult_cyclic_elim h
  obtain ⟨nodes, acc2, g2, hcore, hkinv, hnodes⟩ := sortedCore_spec s
  rw [hcore] at hg2ne hdeps
  simp only at hg2ne hdeps
  have hlookup_mem : ∀ e ∈ g2, lookupA e.1 g2 = some e.2 := by
    intro e he
    obtain ⟨e1, e2⟩ := e
    exact lookupA_of_mem_nodup hkinv.keysN he
  refine ⟨?_, ?_, ?_⟩
  · intro hnil
    rw [hnil] at hdeps
    simp at hdeps
    exact hg2ne hdeps
  · intro p hpd
    rw [hdeps] at hpd
    obtain ⟨e, he, hpe⟩ := List.mem_map.1 hpd
    have hl := hlookup_mem e he
    have hch := hkinv.chE e.1 e.2.1 e.2.2 (by rw [hl])
    rw [← hpe]
    exact hch
  · intro p hpd c hc
    rw [hdeps] at hpd
    obtain ⟨e, he, hpe⟩ := List.mem_map.1 hpd
    have hl := hlookup_mem e he
    have hch := hkinv.chE e.1 e.2.1 e.2.2 (by rw [hl])
    rw [← hpe] at hc
    simp only at hc
    rw [hch] at hc
    obtain ⟨q, hq, hqe⟩ := List.mem_map.1 hc
    have hqf := List.mem_filter.1 hq
    have hq1 : q.1 = e.1 := by simpa using hqf.2
    have hcn : c ∈ nodes := by
      rw [← hqe]
      exact (hkinv.arcsN q hqf.1).2
    have he1acc : e.1 ∉ acc2 := by
      have : (lookupA e.1 g2).isSome := by simp [hl]
      exact ((hkinv.keysC e.1).1 this).2
    have hcnacc : c ∉ acc2 := by
      intro hacc
      have hlb := hkinv.arcsB q hqf.1 (by rw [hqe]; exact hacc)
      have : q.1 ∈ acc2 := mem_left_of_listBefore hlb
      rw [hq1] at this
      exact he1acc this
    have hcsome : (lookupA c g2).isSome := (hkinv.keysC c).2 ⟨hcn, hcnacc⟩
    obtain ⟨pr, hpr⟩ := Option.isSome_iff_exists.1 hcsome
    have hmem : (c, pr) ∈ g2 := mem_of_lookupA hpr
    refine ⟨(c, pr.2), ?_, rfl⟩
    rw [hdeps]
    exact List.mem_map.2 ⟨(c, pr), hmem, rfl⟩

/-- Witness for C4: the mutual `a` after `b`, `b` after `a` example —
`sorted()` fails with a cycle error naming exactly `{a, b}` with their
unresolved successors. -/
theorem tsorter_c4_witness :
    TopologicalSorter.sortedResult exC4
        = .error (.cyclic [(.user "a", [.user "b"]), (.user "b", [.user "a"])]) ∧
      (([(.user "a", [.user "b"]), (.user "b", [.user "a"])]
          : List (NName × List NName)) ≠ [] ∧
        (∀ p ∈ ([(.user "a", [.user "b"]), (.user "b", [.user "a"])]
            : List (NName × List NName)),
          p.2 = ((effArcs exC4).filter
            (fun q => decide (q.1 = p.1))).map Prod.snd) ∧
        (∀ p ∈ ([(.user "a", [.user "b"]), (.user "b", [.user "a"])]
            : List (NName × List NName)), ∀ c ∈ p.2,
          ∃ q ∈ ([(.user "a", [.user "b"]), (.user "b", [.user "a"])]
            : List (NName × List NName)), q.1 = c)) :=
  ⟨rfl, tsorter_c4_cycle exC4 [(.user "a", [.user "b"]), (.user "b", [.user "a"])] rfl⟩
